import Mathlib

/-!
A shallow embedding of the read-parse-dispatch loop of `src/msh/msh.c` (msh).

C strings are modelled as `List Char` (the characters before the terminating NUL),
`char *` values that may be `NULL` as `Option (List Char)`, and the 32-slot pointer
array `token` as a `List Slot` of length 32.  The array is declared without an
initialiser inside the loop body, so each slot starts out indeterminate (`Slot.uninit`)
in every iteration; a branch on an indeterminate slot ends in `Control.undefined`.
System calls are recorded as `Action`s and their results come from a `World`.
Allocation and `free` are not modelled.  What `fgets` stored in `command_string` is the
input of `processLine`; it has at most `MAX_COMMAND_SIZE - 1` characters (`InputLine`).

`processLineStale` is the same iteration with the old content of the array as a
parameter: an unwritten slot then reads as that pointer value, `NULL` or a pointer to
some string, and no branch is left undefined.  Where `processLine` meets no unwritten
slot the two agree on what the shell process does (`processLine_refines`).  `runShell`
is the read loop over the lines `fgets` delivers, ended by end of input or by `exit`.

`wordsOf`, `specParse`, `specTokenize` and `SpecExitLine` are not translated from the
source: they follow the words of the specification (tokens as runs of non-whitespace,
the redirection rules of its section 4.2) and serve to compare it with the code.
-/

namespace Msh

/-! Constants (msh.c lines 37-44, 50) -/

/-- `#define WHITESPACE " \t\n"`: the delimiter set handed to `strsep`. -/
def WHITESPACE : List Char := [' ', '\t', '\n']

/-- `#define MAX_COMMAND_SIZE 255`. -/
def MAX_COMMAND_SIZE : Nat := 255

/-- `#define MAX_NUM_ARGUMENTS 32`. -/
def MAX_NUM_ARGUMENTS : Nat := 32

/-- `char error_message[30] = "An error has occurred\n"`. -/
def error_message : List Char := "An error has occurred\n".toList

/-! libc string functions -/

/-- `isspace` in the C locale: space, `\t`, `\n`, `\v`, `\f`, `\r`. -/
def isspace (c : Char) : Bool :=
  c == ' ' || c == '\t' || c == '\n' || c == '\x0b' || c == '\x0c' || c == '\r'

/-- Membership of a character in the delimiter string `WHITESPACE`. -/
def isDelim (c : Char) : Bool := WHITESPACE.contains c

/-- `strsep(&stringp, WHITESPACE)`: the pair (return value, new value of `stringp`).
With `stringp == NULL` it returns `NULL`.  Otherwise the token runs up to the first
delimiter, which is overwritten by NUL, and `stringp` moves past it; when there is no
delimiter the token is the whole rest and `stringp` becomes `NULL`. -/
def strsep (stringp : Option (List Char)) : Option (List Char) × Option (List Char) :=
  match stringp with
  | none => (none, none)
  | some s =>
    match s.dropWhile (fun c => !isDelim c) with
    | [] => (some s, none)
    | _ :: rest => (some (s.takeWhile (fun c => !isDelim c)), some rest)

/-- `strndup(s, n)`: a copy of at most `n` characters of `s`. -/
def strndup (s : List Char) (n : Nat) : List Char := s.take n

/-- `snprintf(path, size, "%s%s", dir, name)`: at most `size - 1` characters are stored. -/
def snprintf (size : Nat) (dir name : List Char) : List Char := (dir ++ name).take (size - 1)

/-! The token array and the recorded actions -/

/-- One element of `char *token[MAX_NUM_ARGUMENTS]`: never written in this iteration
(indeterminate), `NULL`, or a pointer to a heap string. -/
inductive Slot where
  | uninit : Slot
  | null : Slot
  | str (s : List Char) : Slot
  deriving DecidableEq, Repr

/-- Reading `token[i]`; an index outside the array is as indeterminate as an unwritten slot. -/
def readSlot (token : List Slot) (i : Nat) : Slot := token.getD i Slot.uninit

/-- The system calls the shell and its child make while handling one line. -/
inductive Action where
  | writeError : Action
  | chdir (dir : List Char) : Action
  | access (path : List Char) : Action
  | fork : Action
  | waitpid : Action
  | openFile (file : Option (List Char)) : Action
  | dup2 (fd : Int) (newfd : Nat) : Action
  | close (fd : Int) : Action
  | execv (path : List Char) (argv : Option (List (List Char))) : Action
  | exit (status : Nat) : Action
  deriving DecidableEq, Repr

/-- Results of the system calls, as far as the shell looks at them. -/
structure World where
  /-- The test `access(path, X_OK) == 0`. -/
  access : List Char → Bool
  /-- The test `chdir(dir) == 0`. -/
  chdir : List Char → Bool
  /-- Whether `fork()` creates a child (`false`: it returns a negative pid). -/
  forkOk : Bool
  /-- The descriptor returned by `open(file, ...)`, `-1` on failure. -/
  openFd : Option (List Char) → Int
  /-- Whether `execv(path, ...)` replaces the process image (`false`: it returns). -/
  execOk : List Char → Bool

/-! The tokenizer loop (msh.c lines 104-161) -/

/-- The local variables of one loop iteration of `main` that the tokenizer touches,
with the log of the error messages written so far. -/
structure TokState where
  token : List Slot
  token_count : Nat
  working_string : Option (List Char)
  redirect : Int
  outputFile : Option (List Char)
  log : List Action
  deriving DecidableEq, Repr

/-- The three error exits of the redirection branch: write the message, `redirect = -1; break`. -/
def parseError (st : TokState) : TokState :=
  { st with redirect := -1, log := st.log ++ [Action.writeError] }

/-- The `while` loop of lines 121-161.  Every iteration calls `strsep` at least once, so
`fuel` bounds the number of iterations; `none` means the fuel ran out. -/
def tokenizeLoop : Nat → TokState → Option TokState
  | 0, _ => none
  | fuel + 1, st =>
    match strsep st.working_string with
    | (none, ws) => some { st with working_string := ws }
    | (some argument_pointer, ws) =>
      if st.token_count < MAX_NUM_ARGUMENTS then
        let tok := strndup argument_pointer MAX_COMMAND_SIZE
        if tok.length = 0 then
          tokenizeLoop fuel
            { st with token := st.token.set st.token_count Slot.null, working_string := ws }
        else if tok = ['>'] then
          let st1 : TokState :=
            { st with token := st.token.set st.token_count (Slot.str tok), working_string := ws }
          if st.token_count = 0 ∨ st.redirect ≠ 0 then
            some (parseError st1)
          else
            match strsep ws with
            | (none, ws2) => some (parseError { st1 with working_string := ws2 })
            | (some file, ws2) =>
              if file.length = 0 then
                some (parseError { st1 with working_string := ws2 })
              else
                let st2 : TokState :=
                  { st1 with working_string := ws2,
                             outputFile := some (strndup file MAX_COMMAND_SIZE) }
                match strsep ws2 with
                | (some extra, ws3) =>
                  if extra.length > 0 then
                    some (parseError { st2 with working_string := ws3 })
                  else
                    some { st2 with working_string := ws3, redirect := 1,
                                    token := st2.token.set st.token_count Slot.null }
                | (none, ws3) =>
                  some { st2 with working_string := ws3, redirect := 1,
                                  token := st2.token.set st.token_count Slot.null }
        else
          tokenizeLoop fuel
            { st with token := st.token.set st.token_count (Slot.str tok),
                      token_count := st.token_count + 1, working_string := ws }
      else
        some { st with working_string := ws }

/-- The state on entry to the loop (lines 104-118): an unwritten array, no token,
`working_string = strdup(start)`, `redirect = 0`, `outputFile = NULL`. -/
def initState (start : List Char) : TokState :=
  { token := List.replicate MAX_NUM_ARGUMENTS Slot.uninit, token_count := 0,
    working_string := some start, redirect := 0, outputFile := none, log := [] }

/-- Tokenization of the trimmed line `start`.  The loop makes at most
`start.length + 2` calls of `strsep` at its head. -/
def tokenize (start : List Char) : Option TokState :=
  tokenizeLoop (start.length + 2) (initState start)

/-- The accepted tokens: the first `token_count` slots of the array. -/
def acceptedTokens (st : TokState) : List Slot := st.token.take st.token_count

/-! Resolution, builtins and launch (msh.c lines 173-237) -/

/-- `char *pathDir[] = {"/bin/","/usr/bin/","/usr/local/bin/","./"}`. -/
def pathDir : List (List Char) :=
  ["/bin/".toList, "/usr/bin/".toList, "/usr/local/bin/".toList, "./".toList]

/-- Outcome of the directory search: the flag `check`, the buffer `path` as the loop
left it, and the `access` calls made. -/
structure SearchResult where
  check : Bool
  path : List Char
  log : List Action
  deriving DecidableEq, Repr

/-- The `for` loop of lines 197-203 over the remaining directories; `path` is the
current content of the buffer. -/
def searchLoop (w : World) (cmd : List Char) : List (List Char) → List Char → SearchResult
  | [], path => { check := false, path := path, log := [] }
  | dir :: dirs, _ =>
    let path := snprintf MAX_COMMAND_SIZE dir cmd
    if w.access path then
      { check := true, path := path, log := [Action.access path] }
    else
      let r := searchLoop w cmd dirs path
      { check := r.check, path := r.path, log := Action.access path :: r.log }

/-- The search over the four directories for `token[0]`. -/
def search (w : World) (cmd : List Char) : SearchResult := searchLoop w cmd pathDir []

/-- The argument vector `execv` reads from `token`: the strings up to the first `NULL`.
`none` when an unwritten slot or the end of the array comes first. -/
def argvOf : List Slot → Option (List (List Char))
  | [] => none
  | Slot.null :: _ => some []
  | Slot.uninit :: _ => none
  | Slot.str s :: rest => (argvOf rest).map (fun args => s :: args)

/-- The child branch of the fork (lines 210-229). -/
def childRun (w : World) (path : List Char) (st : TokState) : List Action :=
  (if st.redirect ≠ 0 then
    let fd := w.openFd st.outputFile
    [Action.openFile st.outputFile] ++ (if fd = -1 then [Action.writeError] else [])
      ++ [Action.dup2 fd 1, Action.dup2 fd 2, Action.close fd]
  else [])
  ++ [Action.execv path (argvOf st.token)]
  ++ (if w.execOk path then [] else [Action.writeError, Action.exit 1])

/-- How the handling of a line ends: back to the head of the loop, `exit(status)`,
or behaviour that C leaves undefined (an indeterminate slot was read). -/
inductive Control where
  | next : Control
  | exit (status : Nat) : Control
  | undefined : Control
  deriving DecidableEq, Repr

/-- What handling one line did: the actions of the shell process in order, the actions
of the child when one was created, and how the iteration ended. -/
structure LineResult where
  shell : List Action
  child : Option (List Action)
  control : Control
  deriving DecidableEq, Repr

/-- Lines 173-237, reached when `redirect != -1`: builtins, search, fork. -/
def dispatch (w : World) (st : TokState) : LineResult :=
  match readSlot st.token 0 with
  | Slot.str cmd =>
    if cmd = "exit".toList ∨ cmd = "quit".toList then
      match readSlot st.token 1 with
      | Slot.str _ => { shell := st.log ++ [Action.writeError], child := none, control := Control.next }
      | Slot.null => { shell := st.log ++ [Action.exit 0], child := none, control := Control.exit 0 }
      | Slot.uninit => { shell := st.log, child := none, control := Control.undefined }
    else if cmd = "cd".toList then
      match readSlot st.token 1 with
      | Slot.null => { shell := st.log ++ [Action.writeError], child := none, control := Control.next }
      | Slot.uninit => { shell := st.log, child := none, control := Control.undefined }
      | Slot.str dir =>
        match readSlot st.token 2 with
        | Slot.str _ =>
          { shell := st.log ++ [Action.writeError], child := none, control := Control.next }
        | Slot.uninit => { shell := st.log, child := none, control := Control.undefined }
        | Slot.null =>
          if w.chdir dir then
            { shell := st.log ++ [Action.chdir dir], child := none, control := Control.next }
          else
            { shell := st.log ++ [Action.chdir dir, Action.writeError], child := none,
              control := Control.next }
    else
      let r := search w cmd
      if !r.check then
        { shell := st.log ++ r.log ++ [Action.writeError], child := none, control := Control.next }
      else if w.forkOk then
        { shell := st.log ++ r.log ++ [Action.fork, Action.waitpid],
          child := some (childRun w r.path st), control := Control.next }
      else
        { shell := st.log ++ r.log ++ [Action.fork, Action.writeError], child := none,
          control := Control.next }
  | _ => { shell := st.log, child := none, control := Control.undefined }

/-- The pointer `start` of lines 95-98: `command_string` past its leading `isspace`
characters. -/
def start (command_string : List Char) : List Char := command_string.dropWhile isspace

/-- One iteration of the `while(1)` loop after `fgets` returned `command_string`
(lines 89-246). `none` only if the tokenizer loop ran out of fuel. -/
def processLine (w : World) (command_string : List Char) : Option LineResult :=
  if command_string = ['\n'] then
    some { shell := [], child := none, control := Control.next }
  else
    if (start command_string).length = 0 then
      some { shell := [], child := none, control := Control.next }
    else
      match tokenize (start command_string) with
      | none => none
      | some st =>
        if st.redirect = -1 then
          some { shell := st.log, child := none, control := Control.next }
        else
          some (dispatch w st)

/-! Reference notions used to state the properties -/

/-- The tokens of a string: its maximal non-empty runs of characters other than
space, tab and newline, in order of appearance. -/
def wordsOf (s : List Char) : List (List Char) :=
  (s.splitOnP isDelim).filter (fun t => !t.isEmpty)

/-- The line as `fgets(command_string, MAX_COMMAND_SIZE, ...)` can deliver it:
at most `MAX_COMMAND_SIZE - 1` characters. -/
def InputLine (line : List Char) : Prop := line.length ≤ MAX_COMMAND_SIZE - 1

instance (line : List Char) : Decidable (InputLine line) := by
  unfold InputLine; infer_instance

/-- A world in which nothing is executable and every call fails. -/
def bareWorld : World :=
  { access := fun _ => false, chdir := fun _ => false, forkOk := false,
    openFd := fun _ => -1, execOk := fun _ => false }

/-- A world in which exactly the listed paths are executable and every call succeeds. -/
def worldWith (exes : List (List Char)) : World :=
  { access := fun p => exes.contains p, chdir := fun _ => true, forkOk := true,
    openFd := fun _ => 3, execOk := fun p => exes.contains p }

/-- The tokens still ahead of `strsep`: none once `stringp` is `NULL`. -/
def wordsOpt : Option (List Char) → List (List Char)
  | none => []
  | some s => wordsOf s

/-- A bound on the calls of `strsep` the loop head can still make. -/
def remaining : Option (List Char) → Nat
  | none => 1
  | some s => s.length + 2

/-- A line of 34 one-letter tokens. -/
def longLine : List Char := (List.replicate 34 ['a', ' ']).flatten ++ ['\n']

/-- A line of exactly 32 one-letter tokens, newline-terminated (65 characters). -/
def fullLine : List Char := (List.replicate 32 ['a', ' ']).flatten ++ ['\n']

/-- A string that is empty or whose last character is a delimiter. -/
def endsDelim (s : List Char) : Prop := ∀ c, s.getLast? = some c → isDelim c = true

instance (s : List Char) : Decidable (endsDelim s) := by
  unfold endsDelim
  cases h : s.getLast? with
  | none => exact isTrue (by simp)
  | some d =>
    by_cases hd : isDelim d = true
    · exact isTrue (by intro c hc; simp only [Option.some.injEq] at hc; rw [← hc]; exact hd)
    · exact isFalse (fun hall => hd (hall d rfl))

/-- A token as the loop accepts it: non-empty, free of delimiters, and not `>`. -/
def GoodToken (t : List Char) : Prop :=
  t ≠ [] ∧ t ≠ ['>'] ∧ ∀ c ∈ t, ¬ (isDelim c = true)

/-! The loop body with its parts as parameters; unwritten slots; the read loop -/

/-- One iteration of `while(1)` after `fgets` (lines 89-246), with the tokenizer and the
code after it (lines 173-237) as parameters: the two blank-line tests, the tokenizer,
the parse-error exit, the dispatch. -/
def loopBody (tok : List Char → Option TokState) (disp : TokState → LineResult)
    (command_string : List Char) : Option LineResult :=
  if command_string = ['\n'] then
    some { shell := [], child := none, control := Control.next }
  else
    if (start command_string).length = 0 then
      some { shell := [], child := none, control := Control.next }
    else
      match tok (start command_string) with
      | none => none
      | some st =>
        if st.redirect = -1 then
          some { shell := st.log, child := none, control := Control.next }
        else
          some (disp st)

/-- What a read of one slot yields when the unwritten slots hold the pointer values
`stale` (slot by slot: `NULL`, or a pointer to some string): written slots are unchanged. -/
def fillSlot (stale : Nat → Option (List Char)) (i : Nat) : Slot → Slot
  | Slot.uninit =>
    match stale i with
    | none => Slot.null
    | some s => Slot.str s
  | Slot.null => Slot.null
  | Slot.str s => Slot.str s

/-- The array from slot `i` on, with every unwritten slot holding its `stale` value. -/
def fillFrom (stale : Nat → Option (List Char)) : Nat → List Slot → List Slot
  | _, [] => []
  | i, s :: rest => fillSlot stale i s :: fillFrom stale (i + 1) rest

/-- The tokenizer state as the code after the loop finds it in memory, given what the
array held before the iteration. -/
def fillState (stale : Nat → Option (List Char)) (st : TokState) : TokState :=
  { st with token := fillFrom stale 0 st.token }

/-- One iteration of `while(1)` when the array `token` held `stale` on entry. -/
def processLineStale (w : World) (stale : Nat → Option (List Char))
    (command_string : List Char) : Option LineResult :=
  loopBody tokenize (fun st => dispatch w (fillState stale st)) command_string

/-- What one iteration of the read loop meets: the string `fgets` stored, the results
of the system calls during the iteration, and the old content of the array `token`. -/
structure LineInput where
  line : List Char
  world : World
  stale : Nat → Option (List Char)

/-- How the shell process ended: its exit status, the number of lines `fgets` had
delivered, and whether the last `fgets` returned `NULL` (end of input). -/
structure ShellEnd where
  status : Nat
  linesRead : Nat
  atEof : Bool
  deriving DecidableEq, Repr

/-- The `while(1)` loop of lines 68-246 on the lines still to come: `fgets` returns
`NULL` after the last one and the shell calls `exit(0)` (lines 76-78, 83-85); a line
whose handling calls `exit(status)` ends the loop there; any other line is followed by
the next read.  The prompt of interactive mode is not recorded. -/
def runShell : List LineInput → Option ShellEnd
  | [] => some { status := 0, linesRead := 0, atEof := true }
  | x :: rest =>
    match processLineStale x.world x.stale x.line with
    | none => none
    | some r =>
      match r.control with
      | Control.exit status => some { status := status, linesRead := 1, atEof := false }
      | Control.undefined => none
      | Control.next =>
        (runShell rest).map (fun e => { e with linesRead := e.linesRead + 1 })

/-- One pass through the loop of lines 121-161, head test included: the state after
it, and whether the loop goes on (`false`: the head test failed or a `break` was taken). -/
def tokenizeStep (st : TokState) : TokState × Bool :=
  match strsep st.working_string with
  | (none, ws) => ({ st with working_string := ws }, false)
  | (some argument_pointer, ws) =>
    if st.token_count < MAX_NUM_ARGUMENTS then
      let tok := strndup argument_pointer MAX_COMMAND_SIZE
      if tok.length = 0 then
        ({ st with token := st.token.set st.token_count Slot.null, working_string := ws }, true)
      else if tok = ['>'] then
        let st1 : TokState :=
          { st with token := st.token.set st.token_count (Slot.str tok), working_string := ws }
        if st.token_count = 0 ∨ st.redirect ≠ 0 then
          (parseError st1, false)
        else
          match strsep ws with
          | (none, ws2) => (parseError { st1 with working_string := ws2 }, false)
          | (some file, ws2) =>
            if file.length = 0 then
              (parseError { st1 with working_string := ws2 }, false)
            else
              let st2 : TokState :=
                { st1 with working_string := ws2,
                           outputFile := some (strndup file MAX_COMMAND_SIZE) }
              match strsep ws2 with
              | (some extra, ws3) =>
                if extra.length > 0 then
                  (parseError { st2 with working_string := ws3 }, false)
                else
                  ({ st2 with working_string := ws3, redirect := 1,
                              token := st2.token.set st.token_count Slot.null }, false)
              | (none, ws3) =>
                ({ st2 with working_string := ws3, redirect := 1,
                            token := st2.token.set st.token_count Slot.null }, false)
      else
        ({ st with token := st.token.set st.token_count (Slot.str tok),
                   token_count := st.token_count + 1, working_string := ws }, true)
    else
      ({ st with working_string := ws }, false)

/-- The states of the tokenizer loop in order: the state at the head of each iteration
and, last, the state at exit (within `fuel` iterations). -/
def iterStates : Nat → TokState → List TokState
  | 0, st => [st]
  | fuel + 1, st =>
    if (tokenizeStep st).2 then st :: iterStates fuel (tokenizeStep st).1
    else [st, (tokenizeStep st).1]

/-- The invariant of the tokenizer loop: the array has its 32 slots, the count is at
most 32, and each slot below the count holds a non-empty string without delimiters that
is not `>`. -/
def LoopInv (st : TokState) : Prop :=
  st.token.length = MAX_NUM_ARGUMENTS ∧ st.token_count ≤ MAX_NUM_ARGUMENTS
    ∧ ∀ i, i < st.token_count → ∃ t, readSlot st.token i = Slot.str t ∧ GoodToken t

/-- Modelled from the spec's words (section 4.2), not from the source: the tokenizer
over the tokens of the trimmed line, with the tokens accepted so far.  Tokens beyond the
maximum count are dropped.  A token `>` is an error when no token has been accepted, when
no filename follows, or when a further token follows the filename; otherwise it ends the
pass with the filename as redirect target.  Any other token is appended.  `none` is the
parse error. -/
def specParse : List (List Char) → List (List Char) →
    Option (List (List Char) × Option (List Char))
  | [], acc => some (acc, none)
  | t :: rest, acc =>
    if MAX_NUM_ARGUMENTS ≤ acc.length then some (acc, none)
    else if t = ['>'] then
      if acc = [] then none
      else
        match rest with
        | [] => none
        | [file] => some (acc, some file)
        | _ :: _ :: _ => none
    else specParse rest (acc ++ [t])

/-- Modelled from the spec's words (section 4.2), not from the source: the trimmed line
is split on runs of whitespace into tokens, which `specParse` then reads. -/
def specTokenize (line : List Char) : Option (List (List Char) × Option (List Char)) :=
  specParse (wordsOf (start line)) []

/-- Modelled from the spec's words (sections 4.4 and 6), not from the source: an
`exit`/`quit` line with no arguments is a line that the spec's tokenizer accepts with
the token list `exit` or `quit` alone. -/
def SpecExitLine (line : List Char) : Prop :=
  match specTokenize line with
  | some (tokens, _) => tokens = ["exit".toList] ∨ tokens = ["quit".toList]
  | none => False

instance (line : List Char) : Decidable (SpecExitLine line) := by
  unfold SpecExitLine; split <;> infer_instance

/-- A command name of 246 bytes: with `/bin/` it fits the path buffer, with `/usr/bin/`
it does not. -/
def midName : List Char := List.replicate 246 'c'

/-- The first 254 bytes of `/usr/bin/` followed by `midName`: `/usr/bin/` and 245 of
its bytes. -/
def cutUsrPath : List Char := "/usr/bin/".toList ++ List.replicate 245 'c'

/-- A command name of 250 bytes. -/
def longName : List Char := List.replicate 250 'a'

/-- The first 254 bytes of `/bin/` followed by `longName`: `/bin/` and 249 of its bytes. -/
def cutPath : List Char := "/bin/".toList ++ List.replicate 249 'a'

/-- The tokenizer state of the line `ls -l > out`, newline-terminated. -/
def lsOutState : TokState :=
  (tokenize (start "ls -l > out\n".toList)).getD (initState [])

/-! Facts about `strsep` and the tokens of a string -/

theorem dropWhile_head_delim (s : List Char) (d : Char) (rest : List Char)
    (h : s.dropWhile (fun c => !isDelim c) = d :: rest) : isDelim d = true := by
  induction s with
  | nil => simp at h
  | cons a t ih =>
    rw [List.dropWhile_cons] at h
    by_cases ha : isDelim a = true
    · simp [ha] at h
      rw [← h.1]; exact ha
    · simp [ha] at h
      exact ih h

theorem takeWhile_no_delim (s : List Char) :
    ∀ c ∈ s.takeWhile (fun c => !isDelim c), ¬ (isDelim c = true) := by
  intro c hc
  have := List.mem_takeWhile_imp hc
  simpa using this

theorem wordsOf_no_delim (s : List Char) (h : ∀ c ∈ s, ¬ (isDelim c = true)) :
    wordsOf s = if s = [] then [] else [s] := by
  unfold wordsOf
  rw [List.splitOnP_eq_single isDelim s h]
  by_cases hs : s = []
  · simp [hs]
  · simp [hs, List.filter]
    cases s with
    | nil => exact absurd rfl hs
    | cons a t => rfl

theorem wordsOf_split (tok : List Char) (d : Char) (rest : List Char)
    (h : ∀ c ∈ tok, ¬ (isDelim c = true)) (hd : isDelim d = true) :
    wordsOf (tok ++ d :: rest) = (if tok = [] then [] else [tok]) ++ wordsOf rest := by
  unfold wordsOf
  rw [List.splitOnP_first isDelim tok h d hd rest]
  cases tok with
  | nil => simp [List.filter]
  | cons a t => simp [List.filter]

/-- The two ways a call of `strsep` on a non-NULL string ends. -/
theorem strsep_some (s : List Char) :
    (strsep (some s) = (some s, none) ∧ (∀ c ∈ s, ¬ (isDelim c = true))
        ∧ wordsOf s = if s = [] then [] else [s]) ∨
    (∃ tok d rest, s = tok ++ d :: rest ∧ strsep (some s) = (some tok, some rest)
        ∧ (∀ c ∈ tok, ¬ (isDelim c = true)) ∧ isDelim d = true
        ∧ wordsOf s = (if tok = [] then [] else [tok]) ++ wordsOf rest) := by
  cases hdw : s.dropWhile (fun c => !isDelim c) with
  | nil =>
    left
    have hall : ∀ c ∈ s, ¬ (isDelim c = true) := by
      have := List.dropWhile_eq_nil_iff.mp hdw
      intro c hc; simpa using this c hc
    refine ⟨?_, hall, wordsOf_no_delim s hall⟩
    simp [strsep, hdw]
  | cons d rest =>
    right
    refine ⟨s.takeWhile (fun c => !isDelim c), d, rest, ?_, ?_, takeWhile_no_delim s,
      dropWhile_head_delim s d rest hdw, ?_⟩
    · rw [← hdw]; exact (List.takeWhile_append_dropWhile _ s).symm
    · simp [strsep, hdw]
    · have hs : s = s.takeWhile (fun c => !isDelim c) ++ d :: rest := by
        rw [← hdw]; exact (List.takeWhile_append_dropWhile _ s).symm
      conv_lhs => rw [hs]
      exact wordsOf_split _ d rest (takeWhile_no_delim s) (dropWhile_head_delim s d rest hdw)

theorem take_set_self {α} (l : List α) (n : Nat) (a : α) : (l.set n a).take n = l.take n := by
  induction l generalizing n with
  | nil => simp
  | cons x xs ih =>
    cases n with
    | zero => simp
    | succ k => simp [List.set, ih]

theorem take_succ_set {α} (l : List α) (n : Nat) (a : α) (h : n < l.length) :
    (l.set n a).take (n + 1) = l.take n ++ [a] := by
  induction l generalizing n with
  | nil => simp at h
  | cons x xs ih =>
    cases n with
    | zero => simp
    | succ k =>
      simp only [List.set, List.take_succ_cons, List.cons_append]
      rw [ih k (by simpa using h)]

theorem getD_set_ne {α} (l : List α) (i j : Nat) (a d : α) (h : i ≠ j) :
    (l.set i a).getD j d = l.getD j d := by
  simp [List.getD_eq_getElem?_getD, List.getElem?_set_ne h]

theorem getD_set_self {α} (l : List α) (i : Nat) (a d : α) (h : i < l.length) :
    (l.set i a).getD i d = a := by
  simp [List.getD_eq_getElem?_getD, List.getElem?_set_self h]

/-- One call of `strsep` on a non-NULL string: it returns a piece without delimiters,
the rest gets shorter, and the words of the string are the piece (if non-empty)
followed by the words of the rest. -/
theorem strsep_step (s : List Char) :
    ∃ tok rest, strsep (some s) = (some tok, rest)
      ∧ tok.length ≤ s.length
      ∧ remaining rest < remaining (some s)
      ∧ (∀ r, rest = some r → r.length ≤ s.length)
      ∧ (∀ c ∈ tok, ¬ (isDelim c = true))
      ∧ wordsOf s = (if tok = [] then [] else [tok]) ++ wordsOpt rest := by
  rcases strsep_some s with ⟨h1, h2, h3⟩ | ⟨tok, d, rest, hs, h1, h2, _, h3⟩
  · exact ⟨s, none, h1, le_rfl, by simp [remaining], by simp, h2, by simp [wordsOpt, h3]⟩
  · refine ⟨tok, some rest, h1, ?_, ?_, ?_, h2, by simp [wordsOpt, h3]⟩
    · simp [hs]
    · simp [remaining, hs]; omega
    · intro r hr
      simp at hr
      simp [hs, ← hr]; omega

/-! The tokenizer loop -/

theorem tokenizeLoop_plain (fuel : Nat) : ∀ st : TokState,
    remaining st.working_string ≤ fuel →
    st.token.length = MAX_NUM_ARGUMENTS →
    (∀ s, st.working_string = some s → s.length ≤ MAX_COMMAND_SIZE) →
    (∀ t ∈ (wordsOpt st.working_string).take (MAX_NUM_ARGUMENTS - st.token_count), t ≠ ['>']) →
    ∃ st', tokenizeLoop fuel st = some st'
      ∧ st'.redirect = st.redirect ∧ st'.log = st.log ∧ st'.outputFile = st.outputFile
      ∧ st'.token.length = MAX_NUM_ARGUMENTS
      ∧ acceptedTokens st' = acceptedTokens st ++
          ((wordsOpt st.working_string).take (MAX_NUM_ARGUMENTS - st.token_count)).map Slot.str
      ∧ st'.token_count = st.token_count +
          ((wordsOpt st.working_string).take (MAX_NUM_ARGUMENTS - st.token_count)).length := by
  induction fuel with
  | zero =>
    intro st hfuel
    cases hws : st.working_string <;> simp [hws, remaining] at hfuel
  | succ fuel ih =>
    intro st hfuel hlen hsize hplain
    obtain ⟨token, count, ws, redirect, outputFile, log⟩ := st
    simp only at hfuel hlen hsize hplain ⊢
    cases ws with
    | none =>
      refine ⟨⟨token, count, none, redirect, outputFile, log⟩,
        by simp [tokenizeLoop, strsep], rfl, rfl, rfl, hlen, ?_, ?_⟩ <;>
        simp [wordsOpt, acceptedTokens]
    | some s =>
      obtain ⟨tok, rest, hsep, htl, hrem, hrest, _, hwords⟩ := strsep_step s
      have hs255 : s.length ≤ MAX_COMMAND_SIZE := hsize s rfl
      have htok : strndup tok MAX_COMMAND_SIZE = tok := by
        unfold strndup; exact List.take_of_length_le (le_trans htl hs255)
      have hrest' : ∀ r, rest = some r → r.length ≤ MAX_COMMAND_SIZE :=
        fun r hr => le_trans (hrest r hr) hs255
      have hfuel' : remaining rest ≤ fuel := by omega
      simp only [wordsOpt] at hplain ⊢
      by_cases hc : count < MAX_NUM_ARGUMENTS
      · by_cases hempty : tok = []
        · -- an empty piece: the slot is set to NULL and the loop goes on
          subst hempty
          simp only [if_true, List.nil_append] at hwords
          obtain ⟨st', h1, h2, h3, h4, h5, h6, h7⟩ := ih
            { token := token.set count Slot.null, token_count := count, working_string := rest,
              redirect := redirect, outputFile := outputFile, log := log }
            hfuel' (by simpa using hlen) hrest' (by simpa [hwords] using hplain)
          refine ⟨st', ?_, h2, h3, h4, h5, ?_, ?_⟩
          · rw [tokenizeLoop, hsep]
            simp only [hc, if_true, htok]
            simpa using h1
          · rw [h6, hwords]; simp [acceptedTokens, take_set_self]
          · rw [h7, hwords]
        · -- an ordinary token
          simp only [hempty, if_false] at hwords
          have hpos : MAX_NUM_ARGUMENTS - count = (MAX_NUM_ARGUMENTS - (count + 1)) + 1 := by omega
          have hne : tok ≠ ['>'] := by
            apply hplain
            rw [hwords, hpos]; simp
          obtain ⟨st', h1, h2, h3, h4, h5, h6, h7⟩ := ih
            { token := token.set count (Slot.str tok), token_count := count + 1,
              working_string := rest, redirect := redirect, outputFile := outputFile, log := log }
            hfuel' (by simpa using hlen) hrest' (by
              intro t ht
              apply hplain
              rw [hwords, hpos]
              simp only [List.singleton_append, List.take_succ_cons]
              exact List.mem_cons_of_mem _ ht)
          refine ⟨st', ?_, h2, h3, h4, h5, ?_, ?_⟩
          · rw [tokenizeLoop, hsep]
            simp only [hc, if_true, htok]
            have hl : ¬ (tok.length = 0) := by
              intro h0; exact hempty (List.length_eq_zero.mp h0)
            simp only [hl, hne, if_false]
            exact h1
          · rw [h6, hwords, hpos]
            simp only [acceptedTokens, List.singleton_append, List.take_succ_cons, List.map_cons]
            rw [take_succ_set _ _ _ (by omega)]
            simp
          · rw [h7, hwords, hpos]
            simp only [List.singleton_append, List.take_succ_cons, List.length_cons]
            omega
      · -- the array is full: the piece is dropped and the loop ends
        have h0 : MAX_NUM_ARGUMENTS - count = 0 := by omega
        refine ⟨⟨token, count, rest, redirect, outputFile, log⟩,
          ?_, rfl, rfl, rfl, hlen, ?_, ?_⟩
        · rw [tokenizeLoop, hsep]
          simp only [hc, if_false]
        · simp [h0, acceptedTokens]
        · simp [h0]

theorem strsep_remaining (x : Option (List Char)) (a : List Char) (ws : Option (List Char))
    (h : strsep x = (some a, ws)) : remaining ws < remaining x := by
  cases x with
  | none => simp [strsep] at h
  | some s =>
    obtain ⟨tok, rest, hsep, _, hrem, _⟩ := strsep_step s
    rw [hsep] at h
    simp only [Prod.mk.injEq] at h
    rw [← h.2]; exact hrem

/-- What every run of the tokenizer loop preserves: the array keeps its 32 slots, the
slots below the entry `token_count` are not touched, the count does not decrease, and
either exactly one error message is written and `redirect` is `-1`, or no message is
written and `redirect` keeps its value or becomes `1`. -/
theorem tokenizeLoop_frame (fuel : Nat) : ∀ st : TokState,
    remaining st.working_string ≤ fuel →
    st.token.length = MAX_NUM_ARGUMENTS →
    ∃ st', tokenizeLoop fuel st = some st'
      ∧ st'.token.length = MAX_NUM_ARGUMENTS
      ∧ st.token_count ≤ st'.token_count
      ∧ (∀ i, i < st.token_count → readSlot st'.token i = readSlot st.token i)
      ∧ ((st'.redirect = -1 ∧ st'.log = st.log ++ [Action.writeError])
          ∨ ((st'.redirect = st.redirect ∨ st'.redirect = 1) ∧ st'.log = st.log)) := by
  induction fuel with
  | zero =>
    intro st hfuel
    cases hws : st.working_string <;> simp [hws, remaining] at hfuel
  | succ fuel ih =>
    intro st hfuel hlen
    rw [tokenizeLoop]
    split
    · exact ⟨_, rfl, hlen, le_rfl, fun _ _ => rfl, Or.inr ⟨Or.inl rfl, rfl⟩⟩
    · rename_i arg ws heq
      have hrem : remaining ws ≤ fuel := by
        have := strsep_remaining _ _ _ heq
        omega
      split
      · rename_i hc
        simp only
        split
        · obtain ⟨st', h1, h2, h3, h4, h5⟩ := ih
            { st with token := st.token.set st.token_count Slot.null, working_string := ws }
            hrem (by simpa using hlen)
          refine ⟨st', h1, h2, h3, ?_, h5⟩
          intro i hi
          rw [h4 i hi]
          exact getD_set_ne _ _ _ _ _ (by omega)
        · split
          · have hset : ∀ (v : Slot) (i : Nat), i < st.token_count →
                readSlot (st.token.set st.token_count v) i = readSlot st.token i :=
              fun v i hi => getD_set_ne _ _ _ _ _ (by omega)
            have hset2 : ∀ (v v' : Slot) (i : Nat), i < st.token_count →
                readSlot ((st.token.set st.token_count v).set st.token_count v') i
                  = readSlot st.token i := by
              intro v v' i hi
              unfold readSlot
              rw [getD_set_ne _ _ _ _ _ (by omega), getD_set_ne _ _ _ _ _ (by omega)]
            split
            · exact ⟨_, rfl, by simpa [parseError] using hlen, le_rfl,
                fun i hi => hset _ i hi, Or.inl ⟨rfl, rfl⟩⟩
            · split
              · exact ⟨_, rfl, by simpa [parseError] using hlen, le_rfl,
                  fun i hi => hset _ i hi, Or.inl ⟨rfl, rfl⟩⟩
              · split
                · exact ⟨_, rfl, by simpa [parseError] using hlen, le_rfl,
                    fun i hi => hset _ i hi, Or.inl ⟨rfl, rfl⟩⟩
                · split
                  · split
                    · exact ⟨_, rfl, by simpa [parseError] using hlen, le_rfl,
                        fun i hi => hset _ i hi, Or.inl ⟨rfl, rfl⟩⟩
                    · exact ⟨_, rfl, by simpa using hlen, le_rfl,
                        fun i hi => hset2 _ _ i hi, Or.inr ⟨Or.inr rfl, rfl⟩⟩
                  · exact ⟨_, rfl, by simpa using hlen, le_rfl,
                      fun i hi => hset2 _ _ i hi, Or.inr ⟨Or.inr rfl, rfl⟩⟩
          · obtain ⟨st', h1, h2, h3, h4, h5⟩ := ih
              { st with token := st.token.set st.token_count
                          (Slot.str (strndup arg MAX_COMMAND_SIZE)),
                        token_count := st.token_count + 1, working_string := ws }
              hrem (by simpa using hlen)
            refine ⟨st', h1, h2, ?_, ?_, h5⟩
            · simp only at h3; omega
            · intro i hi
              rw [h4 i (by simp only; omega)]
              exact getD_set_ne _ _ _ _ _ (by omega)
      · exact ⟨_, rfl, hlen, le_rfl, fun _ _ => rfl, Or.inr ⟨Or.inl rfl, rfl⟩⟩

theorem isDelim_isspace (c : Char) (h : isDelim c = true) : isspace c = true := by
  simp only [isDelim, WHITESPACE, List.contains_cons, List.contains_nil, Bool.or_false,
    Bool.or_eq_true, beq_iff_eq] at h
  rcases h with h | h | h <;> subst h <;> decide

theorem strsep_fst (s : List Char) :
    (strsep (some s)).1 = some (s.takeWhile (fun c => !isDelim c)) := by
  cases hdw : s.dropWhile (fun c => !isDelim c) with
  | nil =>
    have := List.takeWhile_append_dropWhile (fun c => !isDelim c) s
    rw [hdw, List.append_nil] at this
    simp [strsep, hdw, this]
  | cons d rest => simp [strsep, hdw]

/-- The trimmed line is empty or starts with a character that is no delimiter. -/
theorem start_head (line : List Char) :
    start line = [] ∨ ∃ c t, start line = c :: t ∧ isDelim c = false := by
  cases h : start line with
  | nil => exact Or.inl rfl
  | cons c t =>
    refine Or.inr ⟨c, t, rfl, ?_⟩
    have hc : isspace c = false := by
      have := List.head_dropWhile_not isspace line (by
        unfold start at h; rw [h]; simp)
      simp only [start] at h
      simpa [h] using this
    cases hd : isDelim c with
    | false => rfl
    | true => rw [isDelim_isspace c hd] at hc; exact absurd hc (by simp)

theorem start_length_le (line : List Char) : (start line).length ≤ line.length := by
  unfold start
  exact (List.dropWhile_sublist _).length_le

/-- Tokenizing a string that starts with a non-delimiter: the loop ends; either it wrote
exactly one error message and set `redirect = -1`, or it wrote nothing, `redirect` is 0
or 1, and slot 0 holds the first word of the string. -/
theorem tokenize_first (s : List Char) (c : Char) (t : List Char) (hs : s = c :: t)
    (hc : isDelim c = false) (hlen : s.length ≤ MAX_COMMAND_SIZE) :
    ∃ cmd more st, wordsOf s = cmd :: more ∧ tokenize s = some st
      ∧ st.token.length = MAX_NUM_ARGUMENTS
      ∧ (cmd = ['>'] → st.redirect = -1 ∧ st.log = [Action.writeError])
      ∧ ((st.redirect = -1 ∧ st.log = [Action.writeError])
          ∨ ((st.redirect = 0 ∨ st.redirect = 1) ∧ st.log = []
              ∧ readSlot st.token 0 = Slot.str cmd ∧ 1 ≤ st.token_count)) := by
  obtain ⟨tok, rest, hsep, htl, hrem, _, _, hwords⟩ := strsep_step s
  have htok : tok = s.takeWhile (fun c => !isDelim c) := by
    have := strsep_fst s
    rw [hsep] at this
    simpa using this
  have hne : tok ≠ [] := by
    rw [htok, hs, List.takeWhile_cons]
    simp [hc]
  have hdup : strndup tok MAX_COMMAND_SIZE = tok := by
    unfold strndup; exact List.take_of_length_le (le_trans htl hlen)
  have hl : ¬ (tok.length = 0) := fun h0 => hne (List.length_eq_zero.mp h0)
  simp only [hne, if_false] at hwords
  unfold tokenize
  rw [tokenizeLoop]
  simp only [initState, hsep]
  have h32 : (0 : Nat) < MAX_NUM_ARGUMENTS := by decide
  simp only [h32, if_true, hdup, hl, if_false]
  by_cases hgt : tok = ['>']
  · refine ⟨tok, wordsOpt rest, parseError
      { token := (List.replicate MAX_NUM_ARGUMENTS Slot.uninit).set 0 (Slot.str tok),
        token_count := 0, working_string := rest, redirect := 0, outputFile := none,
        log := [] }, hwords, ?_, ?_, ?_, ?_⟩
    · simp only [hgt, if_true, true_or]
    · simp [parseError]
    · intro _; simp [parseError]
    · left; simp [parseError]
  · simp only [hgt, if_false]
    obtain ⟨st', h1, h2, h3, h4, h5⟩ := tokenizeLoop_frame (s.length + 1)
      { token := (List.replicate MAX_NUM_ARGUMENTS Slot.uninit).set 0 (Slot.str tok),
        token_count := 0 + 1, working_string := rest, redirect := 0,
        outputFile := none, log := [] }
      (by simp only [remaining] at hrem ⊢; omega) (by simp)
    refine ⟨tok, wordsOpt rest, st', hwords, h1, h2, fun h => absurd h hgt, ?_⟩
    simp only [List.nil_append] at h5
    rcases h5 with h5 | ⟨h5, h6⟩
    · exact Or.inl h5
    · refine Or.inr ⟨h5, h6, ?_, by simpa using h3⟩
      rw [h4 0 (by simp)]
      exact getD_set_self _ _ _ _ (by simp [MAX_NUM_ARGUMENTS])

/-- When nothing but delimiters is left, `strsep` returns `NULL` or an empty piece. -/
theorem strsep_no_words (ws : Option (List Char)) (h : wordsOpt ws = []) :
    ∃ ws2, strsep ws = (none, ws2) ∨ strsep ws = (some [], ws2) := by
  cases ws with
  | none => exact ⟨none, Or.inl rfl⟩
  | some s =>
    obtain ⟨tok, rest, hsep, _, _, _, _, hwords⟩ := strsep_step s
    refine ⟨rest, Or.inr ?_⟩
    simp only [wordsOpt] at h
    rw [h] at hwords
    by_cases ht : tok = []
    · rw [hsep, ht]
    · simp [ht] at hwords

/-- The loop on a rest of the line that consists of ordinary tokens followed by a final
`>`: it ends with one error message and `redirect = -1`. -/
theorem tokenizeLoop_trailing_redirect (fuel : Nat) : ∀ (st : TokState) (pre : List (List Char)),
    remaining st.working_string ≤ fuel →
    (∀ s, st.working_string = some s → s.length ≤ MAX_COMMAND_SIZE) →
    st.redirect = 0 →
    wordsOpt st.working_string = pre ++ [['>']] →
    ['>'] ∉ pre →
    1 ≤ st.token_count + pre.length →
    st.token_count + pre.length < MAX_NUM_ARGUMENTS →
    ∃ st', tokenizeLoop fuel st = some st' ∧ st'.redirect = -1
      ∧ st'.log = st.log ++ [Action.writeError] := by
  induction fuel with
  | zero =>
    intro st pre hfuel
    cases hws : st.working_string <;> simp [hws, remaining] at hfuel
  | succ fuel ih =>
    intro st pre hfuel hsize hred hwords hplain hone hroom
    obtain ⟨token, count, ws, redirect, outputFile, log⟩ := st
    simp only at hfuel hsize hred hwords hone hroom ⊢
    subst hred
    cases ws with
    | none => simp [wordsOpt] at hwords
    | some s =>
      obtain ⟨tok, rest, hsep, htl, hrem, hrest, _, hw⟩ := strsep_step s
      have hs255 : s.length ≤ MAX_COMMAND_SIZE := hsize s rfl
      have htok : strndup tok MAX_COMMAND_SIZE = tok := by
        unfold strndup; exact List.take_of_length_le (le_trans htl hs255)
      have hrest' : ∀ r, rest = some r → r.length ≤ MAX_COMMAND_SIZE :=
        fun r hr => le_trans (hrest r hr) hs255
      have hfuel' : remaining rest ≤ fuel := by omega
      have hc : count < MAX_NUM_ARGUMENTS := by omega
      simp only [wordsOpt] at hwords
      rw [tokenizeLoop, hsep]
      simp only [hc, if_true, htok]
      by_cases hempty : tok = []
      · subst hempty
        simp only [if_true, List.nil_append] at hw
        simp only [List.length_nil, if_true]
        exact ih ⟨token.set count Slot.null, count, rest, 0, outputFile, log⟩ pre hfuel' hrest'
          rfl (by rw [← hw]; exact hwords) hplain hone hroom
      · simp only [hempty, if_false] at hw
        have hl : ¬ (tok.length = 0) := fun h0 => hempty (List.length_eq_zero.mp h0)
        simp only [hl, if_false]
        cases pre with
        | nil =>
          rw [hw] at hwords
          simp only [List.nil_append, List.singleton_append, List.cons.injEq] at hwords
          obtain ⟨htk, hrw⟩ := hwords
          have hcz : ¬ (count = 0) := by simp at hone; omega
          simp only [htk, if_true, hcz, ne_eq, not_true_eq_false, or_self, if_false]
          obtain ⟨ws2, h2 | h2⟩ := strsep_no_words rest hrw
          · rw [h2]; exact ⟨_, rfl, rfl, rfl⟩
          · rw [h2]; simp only [List.length_nil, if_true]; exact ⟨_, rfl, rfl, rfl⟩
        | cons p pre' =>
          rw [hw] at hwords
          simp only [List.singleton_append, List.cons_append, List.cons.injEq] at hwords
          obtain ⟨htk, hrw⟩ := hwords
          have hne : tok ≠ ['>'] := by
            intro h; apply hplain; rw [← htk, h]; simp
          simp only [hne, if_false]
          exact ih ⟨token.set count (Slot.str tok), count + 1, rest, 0, outputFile, log⟩ pre'
            hfuel' hrest' rfl hrw (fun h => hplain (List.mem_cons_of_mem _ h))
            (by simp only; omega) (by simp only [List.length_cons] at hroom ⊢; omega)

/-! Search and dispatch -/

/-- The search loop, when no remaining candidate is executable. -/
theorem searchLoop_none (w : World) (cmd : List Char) (dirs : List (List Char))
    (path : List Char)
    (h : ∀ dir ∈ dirs, w.access (snprintf MAX_COMMAND_SIZE dir cmd) = false) :
    (searchLoop w cmd dirs path).check = false
      ∧ (searchLoop w cmd dirs path).log
          = dirs.map (fun dir => Action.access (snprintf MAX_COMMAND_SIZE dir cmd)) := by
  induction dirs generalizing path with
  | nil => simp [searchLoop]
  | cons d ds ih =>
    have hd := h d (List.mem_cons_self _ _)
    have ih' := ih (snprintf MAX_COMMAND_SIZE d cmd)
      (fun dir hdir => h dir (List.mem_cons_of_mem _ hdir))
    simp [searchLoop, hd, ih'.1, ih'.2]

/-- The search loop stops at the first executable candidate. -/
theorem searchLoop_first (w : World) (cmd : List Char) (before : List (List Char))
    (dir : List Char) (after : List (List Char)) (path : List Char)
    (hb : ∀ b ∈ before, w.access (snprintf MAX_COMMAND_SIZE b cmd) = false)
    (hd : w.access (snprintf MAX_COMMAND_SIZE dir cmd) = true) :
    (searchLoop w cmd (before ++ dir :: after) path).check = true
      ∧ (searchLoop w cmd (before ++ dir :: after) path).path = snprintf MAX_COMMAND_SIZE dir cmd
      ∧ (searchLoop w cmd (before ++ dir :: after) path).log
          = (before ++ [dir]).map (fun d => Action.access (snprintf MAX_COMMAND_SIZE d cmd)) := by
  induction before generalizing path with
  | nil => simp [searchLoop, hd]
  | cons b bs ih =>
    have hb0 := hb b (List.mem_cons_self _ _)
    have ih' := ih (snprintf MAX_COMMAND_SIZE b cmd)
      (fun x hx => hb x (List.mem_cons_of_mem _ hx))
    simp [searchLoop, hb0, ih'.1, ih'.2.1, ih'.2.2]

theorem searchLoop_check_iff (w : World) (cmd : List Char) (dirs : List (List Char))
    (path : List Char) :
    (searchLoop w cmd dirs path).check = true
      ↔ ∃ dir ∈ dirs, w.access (snprintf MAX_COMMAND_SIZE dir cmd) = true := by
  induction dirs generalizing path with
  | nil => simp [searchLoop]
  | cons d ds ih =>
    by_cases hd : w.access (snprintf MAX_COMMAND_SIZE d cmd) = true
    · simp [searchLoop, hd]
    · simp [searchLoop, hd, ih]

theorem snprintf_fits (dir cmd : List Char) (h : (dir ++ cmd).length + 1 ≤ MAX_COMMAND_SIZE) :
    snprintf MAX_COMMAND_SIZE dir cmd = dir ++ cmd := by
  unfold snprintf
  exact List.take_of_length_le (by omega)

theorem childRun_execv (w : World) (path : List Char) (st : TokState) :
    Action.execv path (argvOf st.token) ∈ childRun w path st := by
  simp [childRun]

theorem dispatch_external (w : World) (st : TokState) (cmd : List Char)
    (h0 : readSlot st.token 0 = Slot.str cmd)
    (hnb : cmd ≠ "exit".toList ∧ cmd ≠ "quit".toList ∧ cmd ≠ "cd".toList) :
    dispatch w st =
      if (search w cmd).check = false then
        { shell := st.log ++ (search w cmd).log ++ [Action.writeError], child := none,
          control := Control.next }
      else if w.forkOk = true then
        { shell := st.log ++ (search w cmd).log ++ [Action.fork, Action.waitpid],
          child := some (childRun w (search w cmd).path st), control := Control.next }
      else
        { shell := st.log ++ (search w cmd).log ++ [Action.fork, Action.writeError],
          child := none, control := Control.next } := by
  unfold dispatch
  rw [h0]
  simp only [hnb.1, hnb.2.1, hnb.2.2, or_self, if_false]
  cases (search w cmd).check <;> simp

theorem input_start_length (line : List Char) (hline : InputLine line) :
    (start line).length ≤ MAX_COMMAND_SIZE := by
  have h1 := start_length_le line
  have h2 : line.length ≤ MAX_COMMAND_SIZE - 1 := hline
  simp only [MAX_COMMAND_SIZE] at h2 ⊢
  omega

/-- A line with at least one token passes the blank-line checks, so its handling is
decided by the tokenizer result. -/
theorem processLine_of_tokenize (w : World) (line : List Char) (st : TokState)
    (hwords : wordsOf (start line) ≠ []) (htok : tokenize (start line) = some st) :
    processLine w line =
      some (if st.redirect = -1 then
        { shell := st.log, child := none, control := Control.next }
      else dispatch w st) := by
  have hne : start line ≠ [] := by
    intro h; apply hwords; rw [h]; decide
  have hnl : line ≠ ['\n'] := by
    intro h
    have h0 : start ['\n'] = [] := by decide
    rw [h, h0] at hne
    exact hne rfl
  have hpos : ¬ ((start line).length = 0) := fun h => hne (List.length_eq_zero.mp h)
  unfold processLine
  simp only [hnl, hpos, if_false, htok]
  split <;> rfl

/-- Every line whose first token is `>`, and every line that ends, after at least one
and fewer than 32 ordinary tokens, with the `>` operator and nothing but whitespace
behind it, is rejected: one error message, nothing else, next line. -/
theorem redirect_without_target (w : World) (line : List Char) (hline : InputLine line)
    (h : (wordsOf (start line)).head? = some ['>']
      ∨ ∃ ts, wordsOf (start line) = ts ++ [['>']] ∧ 1 ≤ ts.length
          ∧ ts.length < MAX_NUM_ARGUMENTS ∧ ['>'] ∉ ts) :
    processLine w line
      = some { shell := [Action.writeError], child := none, control := Control.next } := by
  have hlen := input_start_length line hline
  have hwords : wordsOf (start line) ≠ [] := by
    rcases h with h | ⟨ts, h, _⟩
    · intro h0; rw [h0] at h; simp at h
    · rw [h]; simp
  have key : ∃ st, tokenize (start line) = some st ∧ st.redirect = -1
      ∧ st.log = [Action.writeError] := by
    rcases h with h | ⟨ts, hts, h1, h2, h3⟩
    · rcases start_head line with hnil | ⟨c, t, hct, hc⟩
      · rw [hnil] at hwords; exact absurd (by decide) hwords
      · obtain ⟨cmd, more, st, hw, htok, _, hgt, _⟩ := tokenize_first (start line) c t hct hc hlen
        rw [hw] at h
        simp only [List.head?_cons, Option.some.injEq] at h
        exact ⟨st, htok, hgt h⟩
    · obtain ⟨st, hst, hr, hl⟩ := tokenizeLoop_trailing_redirect ((start line).length + 2)
        (initState (start line)) ts (by simp [initState, remaining])
        (by intro s hs; simp only [initState, Option.some.injEq] at hs; rw [← hs]; exact hlen)
        rfl (by simpa [initState, wordsOpt] using hts) h3
        (by simpa [initState] using h1) (by simpa [initState] using h2)
      exact ⟨st, hst, hr, by simpa [initState] using hl⟩
  obtain ⟨st, htok, hr, hl⟩ := key
  rw [processLine_of_tokenize w line st hwords htok]
  simp [hr, hl]

/-! Tokens and sentinel in the array after the loop; the builtins -/

theorem strsep_ends (s : List Char) (hs : endsDelim s) (tok : List Char)
    (rest : Option (List Char)) (h : strsep (some s) = (some tok, rest)) :
    (rest = none → tok = []) ∧ (∀ r, rest = some r → endsDelim r) := by
  rcases strsep_some s with ⟨h1, h2, _⟩ | ⟨tok', d, r', hsplit, h1, _, _, _⟩
  · rw [h1] at h
    simp only [Prod.mk.injEq, Option.some.injEq] at h
    refine ⟨fun _ => ?_, fun r hr => by rw [← h.2] at hr; simp at hr⟩
    rw [← h.1]
    cases hl : s.getLast? with
    | none => simpa using hl
    | some c =>
      have hc := hs c hl
      exact absurd hc (h2 c (List.mem_of_getLast?_eq_some hl))
  · rw [h1] at h
    simp only [Prod.mk.injEq, Option.some.injEq] at h
    refine ⟨fun hn => by rw [← h.2] at hn; simp at hn, fun r hr => ?_⟩
    rw [← h.2] at hr
    simp only [Option.some.injEq] at hr
    subst hr
    intro c hc
    apply hs c
    rw [hsplit]
    cases r' with
    | nil => simp at hc
    | cons x xs =>
      rw [List.getLast?_append_of_ne_nil _ (by simp)]
      rw [List.getLast?_cons_cons]
      exact hc

theorem strsep_piece (x : Option (List Char)) (a : List Char) (ws : Option (List Char))
    (h : strsep x = (some a, ws)) :
    ∃ s, x = some s ∧ ∀ c ∈ a, ¬ (isDelim c = true) := by
  cases x with
  | none => simp [strsep] at h
  | some s =>
    obtain ⟨tok, rest, hsep, _, _, _, hnd, _⟩ := strsep_step s
    rw [hsep] at h
    simp only [Prod.mk.injEq, Option.some.injEq] at h
    exact ⟨s, rfl, by rw [← h.1]; exact hnd⟩

/-- The tokens invariant of the loop: the count never exceeds 32 and every slot below
it holds a non-empty string without delimiters that is not `>`. -/
theorem tokenizeLoop_tokens (fuel : Nat) : ∀ st st' : TokState,
    tokenizeLoop fuel st = some st' →
    st.token.length = MAX_NUM_ARGUMENTS →
    st.token_count ≤ MAX_NUM_ARGUMENTS →
    (∀ i, i < st.token_count → ∃ t, readSlot st.token i = Slot.str t ∧ GoodToken t) →
    st'.token_count ≤ MAX_NUM_ARGUMENTS
      ∧ ∀ i, i < st'.token_count → ∃ t, readSlot st'.token i = Slot.str t ∧ GoodToken t := by
  induction fuel with
  | zero => intro st st' h; simp [tokenizeLoop] at h
  | succ fuel ih =>
    intro st st' h hlen hcnt hinv
    rw [tokenizeLoop] at h
    have hset : ∀ (v : Slot) (i : Nat), i < st.token_count →
        readSlot (st.token.set st.token_count v) i = readSlot st.token i :=
      fun v i hi => getD_set_ne _ _ _ _ _ (by omega)
    have hset2 : ∀ (v v' : Slot) (i : Nat), i < st.token_count →
        readSlot ((st.token.set st.token_count v).set st.token_count v') i
          = readSlot st.token i := by
      intro v v' i hi
      unfold readSlot
      rw [getD_set_ne _ _ _ _ _ (by omega), getD_set_ne _ _ _ _ _ (by omega)]
    split at h
    · simp only [Option.some.injEq] at h; subst h; exact ⟨hcnt, hinv⟩
    · rename_i arg ws heq
      obtain ⟨_, _, hnd⟩ := strsep_piece _ _ _ heq
      split at h
      · rename_i hc
        simp only at h
        split at h
        · exact ih _ st' h (by simpa using hlen) hcnt
            (fun i hi => by simp only at hi ⊢; rw [hset _ i hi]; exact hinv i hi)
        · rename_i hl
          split at h
          · split at h
            · simp only [Option.some.injEq] at h; subst h
              exact ⟨hcnt, fun i hi => by
                simp only [parseError] at hi ⊢; rw [hset _ i hi]; exact hinv i hi⟩
            · split at h
              · simp only [Option.some.injEq] at h; subst h
                exact ⟨hcnt, fun i hi => by
                  simp only [parseError] at hi ⊢; rw [hset _ i hi]; exact hinv i hi⟩
              · split at h
                · simp only [Option.some.injEq] at h; subst h
                  exact ⟨hcnt, fun i hi => by
                    simp only [parseError] at hi ⊢; rw [hset _ i hi]; exact hinv i hi⟩
                · split at h
                  · split at h
                    · simp only [Option.some.injEq] at h; subst h
                      exact ⟨hcnt, fun i hi => by
                        simp only [parseError] at hi ⊢; rw [hset _ i hi]; exact hinv i hi⟩
                    · simp only [Option.some.injEq] at h; subst h
                      exact ⟨hcnt, fun i hi => by
                        simp only at hi ⊢; rw [hset2 _ _ i hi]; exact hinv i hi⟩
                  · simp only [Option.some.injEq] at h; subst h
                    exact ⟨hcnt, fun i hi => by
                      simp only at hi ⊢; rw [hset2 _ _ i hi]; exact hinv i hi⟩
          · rename_i hgt
            refine ih _ st' h (by simpa using hlen) (by simp only; omega) ?_
            intro i hi
            simp only at hi ⊢
            by_cases hi' : i < st.token_count
            · rw [hset _ i hi']; exact hinv i hi'
            · have hie : i = st.token_count := by omega
              subst hie
              refine ⟨strndup arg MAX_COMMAND_SIZE,
                getD_set_self _ _ _ _ (by rw [hlen]; exact hc), ?_, hgt, ?_⟩
              · intro h0; apply hl; rw [h0]; rfl
              · intro c hcm
                exact hnd c (List.mem_of_mem_take hcm)
      · simp only [Option.some.injEq] at h; subst h; exact ⟨hcnt, hinv⟩

/-- Where the loop leaves the end-of-arguments sentinel.  Started with `redirect = 0`:
if it accepts a redirection, the slot after the last token is `NULL` and inside the
array; if it ends with `redirect = 0` on a rest of the line that was empty or ended in a
delimiter, and fewer than 32 tokens were accepted, the slot after the last token is `NULL`. -/
theorem tokenizeLoop_sentinel (fuel : Nat) : ∀ st st' : TokState,
    tokenizeLoop fuel st = some st' →
    st.token.length = MAX_NUM_ARGUMENTS →
    st.redirect = 0 →
    (st'.redirect = 1 →
      st'.token_count < MAX_NUM_ARGUMENTS ∧ readSlot st'.token st'.token_count = Slot.null)
    ∧ (st'.redirect = 0 →
        (∀ s, st.working_string = some s → endsDelim s) →
        (st.working_string = none → readSlot st.token st.token_count = Slot.null) →
        st'.token_count < MAX_NUM_ARGUMENTS →
        readSlot st'.token st'.token_count = Slot.null) := by
  induction fuel with
  | zero => intro st st' h; simp [tokenizeLoop] at h
  | succ fuel ih =>
    intro st st' h hlen hred
    rw [tokenizeLoop] at h
    split at h
    · rename_i ws heq
      have hnone : st.working_string = none := by
        cases hws : st.working_string with
        | none => rfl
        | some s =>
          obtain ⟨tok, rest, hsep, _⟩ := strsep_step s
          rw [hws, hsep] at heq
          simp at heq
      simp only [Option.some.injEq] at h; subst h
      exact ⟨fun h1 => by simp only at h1; rw [hred] at h1; exact absurd h1 (by decide),
        fun _ _ hn _ => hn hnone⟩
    · rename_i arg ws heq
      obtain ⟨s, hs, _⟩ := strsep_piece _ _ _ heq
      rw [hs] at heq
      split at h
      · rename_i hc
        simp only at h
        split at h
        · obtain ⟨h1, h2⟩ := ih _ st' h (by simpa using hlen) hred
          refine ⟨h1, fun h0 hends _ hlt => h2 h0 ?_ ?_ hlt⟩
          · intro r hr
            exact (strsep_ends s (hends s hs) arg ws heq).2 r hr
          · intro _
            exact getD_set_self _ _ _ _ (by rw [hlen]; exact hc)
        · rename_i hl
          split at h
          · have hok : ∀ v : Slot,
                readSlot ((st.token.set st.token_count v).set st.token_count Slot.null)
                  st.token_count = Slot.null :=
              fun v => getD_set_self _ _ _ _ (by simp only [List.length_set, hlen]; exact hc)
            have hbad : ∀ x : TokState, ((parseError x).redirect = 1 → False)
                ∧ ((parseError x).redirect = 0 → False) :=
              fun x => ⟨fun h => absurd h (by simp [parseError]),
                fun h => absurd h (by simp [parseError])⟩
            split at h
            · simp only [Option.some.injEq] at h; subst h
              exact ⟨fun h1 => ((hbad _).1 h1).elim, fun h0 => ((hbad _).2 h0).elim⟩
            · split at h
              · simp only [Option.some.injEq] at h; subst h
                exact ⟨fun h1 => ((hbad _).1 h1).elim, fun h0 => ((hbad _).2 h0).elim⟩
              · split at h
                · simp only [Option.some.injEq] at h; subst h
                  exact ⟨fun h1 => ((hbad _).1 h1).elim, fun h0 => ((hbad _).2 h0).elim⟩
                · split at h
                  · split at h
                    · simp only [Option.some.injEq] at h; subst h
                      exact ⟨fun h1 => ((hbad _).1 h1).elim, fun h0 => ((hbad _).2 h0).elim⟩
                    · simp only [Option.some.injEq] at h; subst h
                      exact ⟨fun _ => ⟨hc, hok _⟩, fun h0 => absurd h0 (by simp)⟩
                  · simp only [Option.some.injEq] at h; subst h
                    exact ⟨fun _ => ⟨hc, hok _⟩, fun h0 => absurd h0 (by simp)⟩
          · obtain ⟨h1, h2⟩ := ih _ st' h (by simpa using hlen) hred
            refine ⟨h1, fun h0 hends _ hlt => h2 h0 ?_ ?_ hlt⟩
            · intro r hr
              exact (strsep_ends s (hends s hs) arg ws heq).2 r hr
            · intro hn
              have := (strsep_ends s (hends s hs) arg ws heq).1 hn
              rw [this] at hl
              exact absurd rfl hl
      · simp only [Option.some.injEq] at h; subst h
        rename_i hc
        exact ⟨fun h1 => by simp only at h1; rw [hred] at h1; exact absurd h1 (by decide),
          fun _ _ _ hlt => absurd hlt hc⟩

theorem start_endsDelim (line : List Char) (h : endsDelim line) : endsDelim (start line) := by
  intro c hc
  apply h c
  obtain ⟨t, ht⟩ : ∃ t, line = t ++ start line := by
    have := List.dropWhile_suffix isspace (l := line)
    obtain ⟨t, ht⟩ := this
    exact ⟨t, ht.symm⟩
  have hne : start line ≠ [] := by
    intro h0; rw [h0] at hc; simp at hc
  rw [ht, List.getLast?_append_of_ne_nil _ hne]
  exact hc

/-- The vector `execv` reads: with strings in the first `n` slots and `NULL` in slot `n`
it is exactly those `n` strings. -/
theorem argvOf_sentinel (n : Nat) : ∀ token : List Slot,
    (∀ i, i < n → ∃ t, readSlot token i = Slot.str t) →
    readSlot token n = Slot.null →
    ∃ args, token.take n = args.map Slot.str ∧ argvOf token = some args := by
  induction n with
  | zero =>
    intro token _ h0
    cases token with
    | nil => simp [readSlot] at h0
    | cons a rest =>
      simp only [readSlot, List.getD_cons_zero] at h0
      subst h0
      exact ⟨[], by simp, rfl⟩
  | succ n ih =>
    intro token hstr hnull
    obtain ⟨t, ht⟩ := hstr 0 (by omega)
    cases token with
    | nil => simp [readSlot] at ht
    | cons a rest =>
      simp only [readSlot, List.getD_cons_zero] at ht
      subst ht
      obtain ⟨args, h1, h2⟩ := ih rest
        (fun i hi => by
          obtain ⟨u, hu⟩ := hstr (i + 1) (by omega)
          exact ⟨u, by simpa [readSlot] using hu⟩)
        (by simpa [readSlot] using hnull)
      exact ⟨t :: args, by simp [h1], by simp [argvOf, h2]⟩

/-- The tokenizer result for any string: facts that hold for every run from the
initial state. -/
theorem tokenize_result (s : List Char) (st : TokState) (h : tokenize s = some st) :
    st.token.length = MAX_NUM_ARGUMENTS
    ∧ st.token_count ≤ MAX_NUM_ARGUMENTS
    ∧ (∀ i, i < st.token_count → ∃ t, readSlot st.token i = Slot.str t ∧ GoodToken t)
    ∧ ((st.redirect = -1 ∧ st.log = [Action.writeError])
        ∨ ((st.redirect = 0 ∨ st.redirect = 1) ∧ st.log = []))
    ∧ (st.redirect = 1 →
        st.token_count < MAX_NUM_ARGUMENTS ∧ readSlot st.token st.token_count = Slot.null)
    ∧ (st.redirect = 0 → endsDelim s → st.token_count < MAX_NUM_ARGUMENTS →
        readSlot st.token st.token_count = Slot.null) := by
  unfold tokenize at h
  obtain ⟨st0, h0, hlen, _, _, hlog⟩ := tokenizeLoop_frame (s.length + 2) (initState s)
    (by simp [initState, remaining]) (by simp [initState])
  rw [h] at h0
  simp only [Option.some.injEq] at h0
  subst h0
  obtain ⟨hc, hgood⟩ := tokenizeLoop_tokens _ _ _ h (by simp [initState])
    (by simp [initState]) (by intro i hi; simp [initState] at hi)
  obtain ⟨hs1, hs0⟩ := tokenizeLoop_sentinel _ _ _ h (by simp [initState]) rfl
  refine ⟨hlen, hc, hgood, by simpa [initState] using hlog, hs1, fun h0 hends hlt => ?_⟩
  exact hs0 h0 (by intro r hr; simp only [initState, Option.some.injEq] at hr;
                   rw [← hr]; exact hends) (by simp [initState]) hlt

/-- The tokenizer loop always ends within its fuel. -/
theorem tokenize_total (s : List Char) : ∃ st, tokenize s = some st := by
  obtain ⟨st, h, _⟩ := tokenizeLoop_frame (s.length + 2) (initState s)
    (by simp [initState, remaining]) (by simp [initState])
  exact ⟨st, h⟩

/-- Handling a line always produces a result. -/
theorem processLine_total (w : World) (line : List Char) : ∃ r, processLine w line = some r := by
  obtain ⟨st, h⟩ := tokenize_total (start line)
  unfold processLine
  simp only [h]
  by_cases h1 : line = ['\n']
  · simp only [h1, if_true]; exact ⟨_, rfl⟩
  · by_cases h2 : (start line).length = 0
    · simp only [h1, h2, if_true, if_false]; exact ⟨_, rfl⟩
    · by_cases h3 : st.redirect = -1
      · simp only [h1, h2, h3, if_true, if_false]; exact ⟨_, rfl⟩
      · simp only [h1, h2, h3, if_false]; exact ⟨_, rfl⟩

/-- Where the sentinel is in place: a line that tokenizes without a parse error to fewer
than 32 tokens, and that ends in a delimiter or carries an accepted redirection, has
`NULL` in the slot after its last token, and `execv` reads exactly the accepted tokens. -/
theorem sentinel_stored (line : List Char) (st : TokState)
    (htok : tokenize (start line) = some st) (hok : st.redirect ≠ -1)
    (hterm : endsDelim line ∨ st.redirect = 1)
    (hroom : st.token_count < MAX_NUM_ARGUMENTS) :
    readSlot st.token st.token_count = Slot.null
      ∧ ∃ args, acceptedTokens st = args.map Slot.str ∧ argvOf st.token = some args := by
  obtain ⟨_, _, hgood, hlog, h1, h0⟩ := tokenize_result _ _ htok
  have hnull : readSlot st.token st.token_count = Slot.null := by
    rcases hlog with ⟨hr, _⟩ | ⟨hr | hr, _⟩
    · exact absurd hr hok
    · rcases hterm with he | he
      · exact h0 hr (start_endsDelim line he) hroom
      · rw [hr] at he; exact absurd he (by decide)
    · exact (h1 hr).2
  exact ⟨hnull, argvOf_sentinel st.token_count st.token
    (fun i hi => by obtain ⟨t, ht, _⟩ := hgood i hi; exact ⟨t, ht⟩) hnull⟩

/-- What a successfully tokenized line with a first token gives the dispatcher: no
message written so far and the first token in slot 0. -/
theorem tokenize_command (line cmd : List Char) (st : TokState) (hline : InputLine line)
    (hfirst : (wordsOf (start line)).head? = some cmd)
    (htok : tokenize (start line) = some st) (hok : st.redirect ≠ -1) :
    st.log = [] ∧ readSlot st.token 0 = Slot.str cmd ∧ 1 ≤ st.token_count := by
  rcases start_head line with hnil | ⟨c, t, hct, hc⟩
  · rw [hnil] at hfirst
    have hw0 : wordsOf [] = [] := by decide
    rw [hw0] at hfirst
    simp at hfirst
  · obtain ⟨cmd', more, st0, hw, htok0, _, _, hres⟩ :=
      tokenize_first (start line) c t hct hc (input_start_length line hline)
    rw [htok] at htok0
    simp only [Option.some.injEq] at htok0
    subst htok0
    rw [hw] at hfirst
    simp only [List.head?_cons, Option.some.injEq] at hfirst
    subst hfirst
    rcases hres with ⟨hr, _⟩ | ⟨_, hl, h0, h1⟩
    · exact absurd hr hok
    · exact ⟨hl, h0, h1⟩

/-- The `exit`/`quit` builtin on a line that tokenizes without a parse error: with a
further token in the list, one error message and the next line; with no further token,
when the line ends in a delimiter or carries an accepted redirection, `exit(0)`. -/
theorem exit_quit_terminated (w : World) (line cmd : List Char) (st : TokState)
    (hline : InputLine line)
    (hfirst : (wordsOf (start line)).head? = some cmd)
    (hcmd : cmd = "exit".toList ∨ cmd = "quit".toList)
    (htok : tokenize (start line) = some st) (hok : st.redirect ≠ -1) :
    (2 ≤ st.token_count → processLine w line
        = some { shell := [Action.writeError], child := none, control := Control.next })
    ∧ (st.token_count = 1 → endsDelim line ∨ st.redirect = 1 → processLine w line
        = some { shell := [Action.exit 0], child := none, control := Control.exit 0 }) := by
  obtain ⟨hlog, h0, _⟩ := tokenize_command line cmd st hline hfirst htok hok
  obtain ⟨_, _, hgood, _⟩ := tokenize_result _ _ htok
  have hwords : wordsOf (start line) ≠ [] := by
    intro h; rw [h] at hfirst; simp at hfirst
  rw [processLine_of_tokenize w line st hwords htok]
  simp only [hok, if_false]
  constructor
  · intro h2
    obtain ⟨t, ht, _⟩ := hgood 1 (by omega)
    unfold dispatch
    rw [h0]
    simp only [hcmd, if_true, ht, hlog, List.nil_append]
  · intro h1 hterm
    have hn := (sentinel_stored line st htok hok hterm
      (by rw [h1]; decide)).1
    rw [h1] at hn
    unfold dispatch
    rw [h0]
    simp only [hcmd, if_true, hn, hlog, List.nil_append]

/-- The `cd` builtin on a line that tokenizes without a parse error: with two or more
arguments, one error message and no `chdir`; with none, the same when the line ends in a
delimiter or carries an accepted redirection; with exactly one, under the same condition,
one `chdir` to that argument and an error message exactly when it fails. -/
theorem cd_terminated (w : World) (line : List Char) (st : TokState)
    (hline : InputLine line)
    (hfirst : (wordsOf (start line)).head? = some "cd".toList)
    (htok : tokenize (start line) = some st) (hok : st.redirect ≠ -1) :
    (3 ≤ st.token_count → processLine w line
        = some { shell := [Action.writeError], child := none, control := Control.next })
    ∧ (st.token_count = 1 → endsDelim line ∨ st.redirect = 1 → processLine w line
        = some { shell := [Action.writeError], child := none, control := Control.next })
    ∧ (st.token_count = 2 → endsDelim line ∨ st.redirect = 1 →
        ∃ dir, readSlot st.token 1 = Slot.str dir ∧ processLine w line
          = some { shell := Action.chdir dir :: (if w.chdir dir then [] else [Action.writeError]),
                   child := none, control := Control.next }) := by
  obtain ⟨hlog, h0, _⟩ := tokenize_command line _ st hline hfirst htok hok
  obtain ⟨_, _, hgood, _⟩ := tokenize_result _ _ htok
  have hwords : wordsOf (start line) ≠ [] := by
    intro h; rw [h] at hfirst; simp at hfirst
  have hne : ¬ ("cd".toList = "exit".toList ∨ "cd".toList = "quit".toList) := by decide
  rw [processLine_of_tokenize w line st hwords htok]
  simp only [hok, if_false]
  refine ⟨?_, ?_, ?_⟩
  · intro h3
    obtain ⟨t1, ht1, _⟩ := hgood 1 (by omega)
    obtain ⟨t2, ht2, _⟩ := hgood 2 (by omega)
    unfold dispatch
    rw [h0]
    simp only [hne, if_false, if_true, ht1, ht2, hlog, List.nil_append]
  · intro h1 hterm
    have hn := (sentinel_stored line st htok hok hterm (by rw [h1]; decide)).1
    rw [h1] at hn
    unfold dispatch
    rw [h0]
    simp only [hne, if_false, if_true, hn, hlog, List.nil_append]
  · intro h2 hterm
    have hn := (sentinel_stored line st htok hok hterm (by rw [h2]; decide)).1
    rw [h2] at hn
    obtain ⟨dir, hdir, _⟩ := hgood 1 (by omega)
    refine ⟨dir, hdir, ?_⟩
    unfold dispatch
    rw [h0]
    simp only [hne, if_false, if_true, hdir, hn, hlog, List.nil_append]
    cases w.chdir dir <;> simp

/-! One pass through the tokenizer loop and its invariant -/

theorem processLine_eq_loopBody (w : World) (line : List Char) :
    processLine w line = loopBody tokenize (dispatch w) line := rfl

theorem tokenizeLoop_succ (fuel : Nat) (st : TokState) :
    tokenizeLoop (fuel + 1) st =
      if (tokenizeStep st).2 then tokenizeLoop fuel (tokenizeStep st).1
      else some (tokenizeStep st).1 := by
  rw [tokenizeLoop]
  unfold tokenizeStep
  cases h1 : strsep st.working_string with
  | mk a ws =>
    cases a with
    | none => rfl
    | some arg =>
      simp only
      by_cases hc : st.token_count < MAX_NUM_ARGUMENTS
      · simp only [hc, if_true]
        by_cases hl : (strndup arg MAX_COMMAND_SIZE).length = 0
        · simp only [hl, if_true]
        · simp only [hl, if_false]
          by_cases hg : strndup arg MAX_COMMAND_SIZE = ['>']
          · simp only [hg, if_true]
            by_cases h0 : st.token_count = 0 ∨ st.redirect ≠ 0
            · simp only [h0, if_true]; rfl
            · simp only [h0, if_false]
              cases h2 : strsep ws with
              | mk b ws2 =>
                cases b with
                | none => rfl
                | some file =>
                  simp only
                  by_cases hf : file.length = 0
                  · simp only [hf, if_true]; rfl
                  · simp only [hf, if_false]
                    cases h3 : strsep ws2 with
                    | mk e ws3 =>
                      cases e with
                      | none => rfl
                      | some extra =>
                        simp only
                        by_cases he : extra.length > 0
                        · simp only [he, if_true]; rfl
                        · simp only [he, if_false]; rfl
          · simp only [hg, if_false, if_true]
      · simp only [hc, if_false]; rfl

theorem strndup_ne_nil (a : List Char) (h : ¬ (strndup a MAX_COMMAND_SIZE).length = 0) :
    strndup a MAX_COMMAND_SIZE ≠ [] := by
  intro h0; apply h; rw [h0]; rfl

/-- The five ways one pass through the tokenizer loop can go: the loop stops with the
variables unchanged; an empty piece stores `NULL` and goes on; a token is stored and
counted; a parse error; an accepted redirection. -/
theorem tokenizeStep_cases (st : TokState) :
    (∃ ws, tokenizeStep st = ({ st with working_string := ws }, false))
    ∨ (∃ ws, st.token_count < MAX_NUM_ARGUMENTS ∧ tokenizeStep st =
        ({ st with token := st.token.set st.token_count Slot.null, working_string := ws }, true))
    ∨ (∃ ws tok, st.token_count < MAX_NUM_ARGUMENTS ∧ GoodToken tok ∧ tokenizeStep st =
        ({ st with token := st.token.set st.token_count (Slot.str tok),
                   token_count := st.token_count + 1, working_string := ws }, true))
    ∨ (∃ ws v file, st.token_count < MAX_NUM_ARGUMENTS ∧ tokenizeStep st =
        (parseError { st with token := st.token.set st.token_count v, working_string := ws,
                              outputFile := file }, false))
    ∨ (∃ ws v file, st.token_count < MAX_NUM_ARGUMENTS ∧ st.token_count ≠ 0 ∧ st.redirect = 0
        ∧ file ≠ [] ∧ tokenizeStep st =
        ({ st with token := (st.token.set st.token_count v).set st.token_count Slot.null,
                   working_string := ws, redirect := 1, outputFile := some file }, false)) := by
  unfold tokenizeStep
  cases h1 : strsep st.working_string with
  | mk a ws =>
    cases a with
    | none => exact Or.inl ⟨ws, rfl⟩
    | some arg =>
      obtain ⟨_, _, hnd⟩ := strsep_piece _ _ _ h1
      simp only
      by_cases hc : st.token_count < MAX_NUM_ARGUMENTS
      · rw [if_pos hc]
        by_cases hl : (strndup arg MAX_COMMAND_SIZE).length = 0
        · rw [if_pos hl]
          exact Or.inr (Or.inl ⟨ws, hc, rfl⟩)
        · rw [if_neg hl]
          by_cases hg : strndup arg MAX_COMMAND_SIZE = ['>']
          · rw [if_pos hg]
            by_cases h0 : st.token_count = 0 ∨ st.redirect ≠ 0
            · rw [if_pos h0]
              exact Or.inr (Or.inr (Or.inr (Or.inl ⟨ws, _, st.outputFile, hc, rfl⟩)))
            · rw [if_neg h0]
              have h00 : st.token_count ≠ 0 ∧ st.redirect = 0 := by
                constructor
                · intro h; exact h0 (Or.inl h)
                · by_contra h; exact h0 (Or.inr h)
              cases h2 : strsep ws with
              | mk b ws2 =>
                cases b with
                | none =>
                  exact Or.inr (Or.inr (Or.inr (Or.inl ⟨ws2, _, st.outputFile, hc, rfl⟩)))
                | some file =>
                  simp only
                  by_cases hf : file.length = 0
                  · rw [if_pos hf]
                    exact Or.inr (Or.inr (Or.inr (Or.inl ⟨ws2, _, st.outputFile, hc, rfl⟩)))
                  · rw [if_neg hf]
                    have hfn : strndup file MAX_COMMAND_SIZE ≠ [] := by
                      intro h
                      apply hf
                      unfold strndup at h
                      cases file with
                      | nil => rfl
                      | cons x xs => simp [MAX_COMMAND_SIZE] at h
                    cases h3 : strsep ws2 with
                    | mk e ws3 =>
                      cases e with
                      | none =>
                        exact Or.inr (Or.inr (Or.inr (Or.inr
                          ⟨ws3, _, _, hc, h00.1, h00.2, hfn, rfl⟩)))
                      | some extra =>
                        simp only
                        by_cases he : extra.length > 0
                        · rw [if_pos he]
                          exact Or.inr (Or.inr (Or.inr (Or.inl ⟨ws3, _, _, hc, rfl⟩)))
                        · rw [if_neg he]
                          exact Or.inr (Or.inr (Or.inr (Or.inr
                            ⟨ws3, _, _, hc, h00.1, h00.2, hfn, rfl⟩)))
          · rw [if_neg hg]
            exact Or.inr (Or.inr (Or.inl ⟨ws, _, hc,
              ⟨strndup_ne_nil arg hl, hg, fun c hcm => hnd c (List.mem_of_mem_take hcm)⟩, rfl⟩))
      · rw [if_neg hc]
        exact Or.inl ⟨ws, rfl⟩

theorem readSlot_set_ne (token : List Slot) (i j : Nat) (v : Slot) (h : i ≠ j) :
    readSlot (token.set i v) j = readSlot token j :=
  getD_set_ne _ _ _ _ _ h

theorem readSlot_set_self (token : List Slot) (i : Nat) (v : Slot) (h : i < token.length) :
    readSlot (token.set i v) i = v :=
  getD_set_self _ _ _ _ h

/-- One pass through the loop preserves the invariant. -/
theorem tokenizeStep_inv (st : TokState) (h : LoopInv st) : LoopInv (tokenizeStep st).1 := by
  obtain ⟨hlen, hcnt, htok⟩ := h
  rcases tokenizeStep_cases st with ⟨ws, he⟩ | ⟨ws, hc, he⟩ | ⟨ws, tok, hc, hg, he⟩
    | ⟨ws, v, file, hc, he⟩ | ⟨ws, v, file, hc, _, _, _, he⟩ <;> rw [he]
  · exact ⟨hlen, hcnt, htok⟩
  · refine ⟨by simpa using hlen, hcnt, fun i hi => ?_⟩
    simp only at hi ⊢
    rw [readSlot_set_ne _ _ _ _ (by omega)]
    exact htok i hi
  · refine ⟨by simpa using hlen, by simp only; omega, fun i hi => ?_⟩
    simp only at hi ⊢
    by_cases hi' : i < st.token_count
    · rw [readSlot_set_ne _ _ _ _ (by omega)]
      exact htok i hi'
    · have hie : i = st.token_count := by omega
      subst hie
      exact ⟨tok, readSlot_set_self _ _ _ (by rw [hlen]; exact hc), hg⟩
  · refine ⟨by simpa [parseError] using hlen, hcnt, fun i hi => ?_⟩
    simp only [parseError] at hi ⊢
    rw [readSlot_set_ne _ _ _ _ (by omega)]
    exact htok i hi
  · refine ⟨by simpa using hlen, hcnt, fun i hi => ?_⟩
    simp only at hi ⊢
    rw [readSlot_set_ne _ _ _ _ (by omega), readSlot_set_ne _ _ _ _ (by omega)]
    exact htok i hi

theorem initState_inv (s : List Char) : LoopInv (initState s) :=
  ⟨by simp [initState], by simp [initState], fun i hi => by simp [initState] at hi⟩

/-- The invariant holds at the head of every iteration and at exit. -/
theorem iterStates_inv (fuel : Nat) : ∀ st, LoopInv st → ∀ x ∈ iterStates fuel st, LoopInv x := by
  induction fuel with
  | zero =>
    intro st h x hx
    simp only [iterStates, List.mem_singleton] at hx
    rw [hx]; exact h
  | succ fuel ih =>
    intro st h x hx
    rw [iterStates] at hx
    split at hx
    · rcases List.mem_cons.mp hx with hx | hx
      · rw [hx]; exact h
      · exact ih _ (tokenizeStep_inv st h) x hx
    · simp only [List.mem_cons, List.mem_singleton, List.not_mem_nil, or_false] at hx
      rcases hx with hx | hx
      · rw [hx]; exact h
      · rw [hx]; exact tokenizeStep_inv st h

/-- The state the loop ends in is the last of its states. -/
theorem iterStates_last (fuel : Nat) : ∀ st st', tokenizeLoop fuel st = some st' →
    (iterStates fuel st).getLast? = some st' := by
  induction fuel with
  | zero => intro st st' h; simp [tokenizeLoop] at h
  | succ fuel ih =>
    intro st st' h
    rw [tokenizeLoop_succ] at h
    rw [iterStates]
    split at h
    · rename_i hgo
      rw [if_pos hgo]
      have := ih _ _ h
      cases hl : iterStates fuel (tokenizeStep st).1 with
      | nil => rw [hl] at this; simp at this
      | cons y ys => rw [hl] at this; rw [List.getLast?_cons_cons]; exact this
    · rename_i hgo
      rw [if_neg hgo]
      simp only [Option.some.injEq] at h
      rw [← h]
      rfl

/-- The redirect flag and the recorded filename: none at the head of every iteration;
at exit, either still none, or the flag is 1 and a non-empty filename is recorded, or
the flag is -1. -/
theorem tokenizeStep_redirect (st : TokState) (h0 : st.redirect = 0)
    (hf : st.outputFile = none) :
    ((tokenizeStep st).2 = true →
      (tokenizeStep st).1.redirect = 0 ∧ (tokenizeStep st).1.outputFile = none)
    ∧ (((tokenizeStep st).1.redirect = 0 ∧ (tokenizeStep st).1.outputFile = none)
        ∨ ((tokenizeStep st).1.redirect = 1
            ∧ ∃ f, (tokenizeStep st).1.outputFile = some f ∧ f ≠ [])
        ∨ (tokenizeStep st).1.redirect = -1) := by
  rcases tokenizeStep_cases st with ⟨ws, he⟩ | ⟨ws, hc, he⟩ | ⟨ws, tok, hc, hg, he⟩
    | ⟨ws, v, file, hc, he⟩ | ⟨ws, v, file, hc, _, _, hne, he⟩ <;> rw [he]
  · exact ⟨fun _ => ⟨h0, hf⟩, Or.inl ⟨h0, hf⟩⟩
  · exact ⟨fun _ => ⟨h0, hf⟩, Or.inl ⟨h0, hf⟩⟩
  · exact ⟨fun _ => ⟨h0, hf⟩, Or.inl ⟨h0, hf⟩⟩
  · exact ⟨fun h => by simp at h, Or.inr (Or.inr rfl)⟩
  · exact ⟨fun h => by simp at h, Or.inr (Or.inl ⟨rfl, file, rfl, hne⟩)⟩

theorem tokenizeLoop_redirect_file (fuel : Nat) : ∀ st st', tokenizeLoop fuel st = some st' →
    st.redirect = 0 → st.outputFile = none →
    (st'.redirect = 0 ∧ st'.outputFile = none)
      ∨ (st'.redirect = 1 ∧ ∃ f, st'.outputFile = some f ∧ f ≠ [])
      ∨ st'.redirect = -1 := by
  induction fuel with
  | zero => intro st st' h; simp [tokenizeLoop] at h
  | succ fuel ih =>
    intro st st' h h0 hf
    rw [tokenizeLoop_succ] at h
    obtain ⟨h1, h2⟩ := tokenizeStep_redirect st h0 hf
    split at h
    · rename_i hgo
      exact ih _ _ h (h1 hgo).1 (h1 hgo).2
    · simp only [Option.some.injEq] at h
      rw [← h]; exact h2

/-! Unwritten slots and the outcome of a line -/

theorem readSlot_fillFrom (stale : Nat → Option (List Char)) :
    ∀ (token : List Slot) (k i : Nat), i < token.length →
      readSlot (fillFrom stale k token) i = fillSlot stale (k + i) (readSlot token i) := by
  intro token
  induction token with
  | nil => intro k i hi; simp at hi
  | cons s rest ih =>
    intro k i hi
    cases i with
    | zero => simp [fillFrom, readSlot]
    | succ j =>
      have := ih (k + 1) j (by simpa using hi)
      simp only [readSlot, fillFrom, List.getD_cons_succ] at this ⊢
      rw [this]
      congr 1
      omega

theorem fillSlot_ne_uninit (stale : Nat → Option (List Char)) (i : Nat) (s : Slot) :
    fillSlot stale i s ≠ Slot.uninit := by
  cases s with
  | uninit =>
    simp only [fillSlot]
    cases stale i <;> simp
  | null => simp [fillSlot]
  | str t => simp [fillSlot]

theorem fillSlot_written (stale : Nat → Option (List Char)) (i : Nat) (s : Slot)
    (h : s ≠ Slot.uninit) : fillSlot stale i s = s := by
  cases s with
  | uninit => exact absurd rfl h
  | null => rfl
  | str t => rfl

theorem search_log_access (w : World) (cmd : List Char) (dirs : List (List Char))
    (path : List Char) :
    ∀ a ∈ (searchLoop w cmd dirs path).log, ∃ p, a = Action.access p := by
  induction dirs generalizing path with
  | nil => intro a ha; simp [searchLoop] at ha
  | cons d ds ih =>
    intro a ha
    rw [searchLoop] at ha
    simp only at ha
    split at ha
    · simp only [List.mem_singleton] at ha
      exact ⟨_, ha⟩
    · simp only [List.mem_cons] at ha
      rcases ha with ha | ha
      · exact ⟨_, ha⟩
      · exact ih _ a ha

theorem count_writeError_zero (l : List Action) (h : ∀ a ∈ l, ∃ p, a = Action.access p) :
    l.count Action.writeError = 0 := by
  rw [List.count_eq_zero]
  intro hm
  obtain ⟨p, hp⟩ := h _ hm
  cases hp

/-- What the code after the tokenizer does once slots 1 and 2 hold some pointer value
and slot 0 a string: at most one error message; the iteration ends with the next read,
or with `exit(0)` on `exit`/`quit` with `NULL` in slot 1; and after an error message
there is no child, no exit, and no directory change that succeeded. -/
theorem dispatch_defined (w : World) (st : TokState) (cmd : List Char)
    (h0 : readSlot st.token 0 = Slot.str cmd) (h1 : readSlot st.token 1 ≠ Slot.uninit)
    (h2 : readSlot st.token 2 ≠ Slot.uninit) (hlog : st.log = []) :
    (dispatch w st).shell.count Action.writeError ≤ 1
    ∧ ((dispatch w st).control = Control.next
        ∨ ((dispatch w st).control = Control.exit 0
            ∧ (cmd = "exit".toList ∨ cmd = "quit".toList)
            ∧ readSlot st.token 1 = Slot.null
            ∧ (dispatch w st).shell = [Action.exit 0] ∧ (dispatch w st).child = none))
    ∧ (Action.writeError ∈ (dispatch w st).shell →
        (dispatch w st).child = none ∧ (dispatch w st).control = Control.next
          ∧ ∀ a ∈ (dispatch w st).shell, a = Action.writeError ∨ (∃ p, a = Action.access p)
              ∨ a = Action.fork ∨ ∃ d, a = Action.chdir d ∧ w.chdir d = false) := by
  by_cases hx : cmd = "exit".toList ∨ cmd = "quit".toList
  · unfold dispatch
    rw [h0]
    simp only [hx, if_true, hlog, List.nil_append]
    cases hs1 : readSlot st.token 1 with
    | uninit => exact absurd hs1 h1
    | null => simp
    | str t => simp
  · by_cases hcd : cmd = "cd".toList
    · unfold dispatch
      rw [h0]
      simp only [hx, if_false, hcd, if_true, hlog, List.nil_append]
      cases hs1 : readSlot st.token 1 with
      | uninit => exact absurd hs1 h1
      | null => simp
      | str dir =>
        cases hs2 : readSlot st.token 2 with
        | uninit => exact absurd hs2 h2
        | str t => simp
        | null =>
          by_cases hch : w.chdir dir = true
          · simp [hch]
          · simp [hch]
    · have hnb : cmd ≠ "exit".toList ∧ cmd ≠ "quit".toList ∧ cmd ≠ "cd".toList :=
        ⟨fun h => hx (Or.inl h), fun h => hx (Or.inr h), hcd⟩
      have hacc : ∀ a ∈ (search w cmd).log, ∃ p, a = Action.access p :=
        search_log_access w cmd pathDir []
      have hcnt : (search w cmd).log.count Action.writeError = 0 :=
        count_writeError_zero _ hacc
      have hnm : Action.writeError ∉ (search w cmd).log := List.count_eq_zero.mp hcnt
      by_cases hck : (search w cmd).check = false
      · have hd : dispatch w st =
            (⟨(search w cmd).log ++ [Action.writeError], none, Control.next⟩ : LineResult) := by
          rw [dispatch_external w st cmd h0 hnb, if_pos hck, hlog, List.nil_append]
        rw [hd]
        refine ⟨?_, Or.inl rfl, fun _ => ⟨rfl, rfl, fun a ha => ?_⟩⟩
        · simp only [List.count_append, hcnt]; simp
        · rcases List.mem_append.mp ha with ha | ha
          · exact Or.inr (Or.inl (hacc a ha))
          · simp only [List.mem_singleton] at ha; exact Or.inl ha
      · by_cases hf : w.forkOk = true
        · have hd : dispatch w st =
              { shell := (search w cmd).log ++ [Action.fork, Action.waitpid],
                child := some (childRun w (search w cmd).path st),
                control := Control.next } := by
            rw [dispatch_external w st cmd h0 hnb, if_neg hck, if_pos hf, hlog,
              List.nil_append]
          rw [hd]
          refine ⟨?_, Or.inl rfl, fun hm => ?_⟩
          · simp only [List.count_append, hcnt]; simp
          · rcases List.mem_append.mp hm with hm | hm
            · exact absurd hm hnm
            · simp at hm
        · have hd : dispatch w st =
              { shell := (search w cmd).log ++ [Action.fork, Action.writeError],
                child := none, control := Control.next } := by
            rw [dispatch_external w st cmd h0 hnb, if_neg hck, if_neg hf, hlog,
              List.nil_append]
          rw [hd]
          refine ⟨?_, Or.inl rfl, fun _ => ⟨rfl, rfl, fun a ha => ?_⟩⟩
          · simp only [List.count_append, hcnt]; simp
          · rcases List.mem_append.mp ha with ha | ha
            · exact Or.inr (Or.inl (hacc a ha))
            · simp only [List.mem_cons, List.mem_singleton, List.not_mem_nil, or_false] at ha
              rcases ha with ha | ha
              · exact Or.inr (Or.inr (Or.inl ha))
              · exact Or.inl ha

/-- Tokenizing a string that starts with a non-delimiter, of any length: the loop ends,
and unless it reports a parse error at least one token is accepted. -/
theorem tokenize_nonempty (s : List Char) (c : Char) (t : List Char) (hs : s = c :: t)
    (hc : isDelim c = false) :
    ∃ st, tokenize s = some st ∧ (st.redirect = -1 ∨ 1 ≤ st.token_count) := by
  obtain ⟨tok, rest, hsep, _, hrem, _, _, _⟩ := strsep_step s
  have htok : tok = s.takeWhile (fun c => !isDelim c) := by
    have := strsep_fst s
    rw [hsep] at this
    simpa using this
  have hne : tok ≠ [] := by
    rw [htok, hs, List.takeWhile_cons]
    simp [hc]
  have hl : ¬ ((strndup tok MAX_COMMAND_SIZE).length = 0) := by
    unfold strndup
    cases tok with
    | nil => exact absurd rfl hne
    | cons x xs => simp [MAX_COMMAND_SIZE]
  unfold tokenize
  rw [tokenizeLoop]
  simp only [initState, hsep]
  have h32 : (0 : Nat) < MAX_NUM_ARGUMENTS := by decide
  rw [if_pos h32, if_neg hl]
  by_cases hgt : strndup tok MAX_COMMAND_SIZE = ['>']
  · rw [if_pos hgt]
    simp only [true_or, if_true]
    exact ⟨_, rfl, Or.inl rfl⟩
  · rw [if_neg hgt]
    obtain ⟨st', h1, _, h3, _, _⟩ := tokenizeLoop_frame (s.length + 1)
      { token := (List.replicate MAX_NUM_ARGUMENTS Slot.uninit).set 0
          (Slot.str (strndup tok MAX_COMMAND_SIZE)),
        token_count := 0 + 1, working_string := rest, redirect := 0,
        outputFile := none, log := [] }
      (by simp only [remaining] at hrem ⊢; omega) (by simp)
    exact ⟨st', h1, Or.inr (by simpa using h3)⟩

theorem take_one_of_readSlot (token : List Slot) (v : Slot) (hlen : 0 < token.length)
    (h : readSlot token 0 = v) : token.take 1 = [v] := by
  cases token with
  | nil => simp at hlen
  | cons a rest =>
    simp only [readSlot, List.getD_cons_zero] at h
    simp [h]

/-- What handling one line does, whatever the array held before: a result exists; the
shell writes at most one error message; the iteration ends with the next read, or with
`exit(0)` on an `exit`/`quit` line without arguments; and after an error message there
is no child, no exit, and no directory change that succeeded. -/
theorem line_outcome (w : World) (stale : Nat → Option (List Char)) (line : List Char) :
    ∃ r, processLineStale w stale line = some r
      ∧ r.shell.count Action.writeError ≤ 1
      ∧ (r.control = Control.next
          ∨ (r.control = Control.exit 0 ∧ (∃ st, tokenize (start line) = some st ∧ st.redirect ≠ -1
                ∧ (acceptedTokens st = [Slot.str "exit".toList]
                    ∨ acceptedTokens st = [Slot.str "quit".toList]))
              ∧ r.shell = [Action.exit 0]
              ∧ r.child = none))
      ∧ (Action.writeError ∈ r.shell →
          r.child = none ∧ r.control = Control.next
            ∧ ∀ a ∈ r.shell, a = Action.writeError ∨ (∃ p, a = Action.access p)
                ∨ a = Action.fork ∨ ∃ d, a = Action.chdir d ∧ w.chdir d = false) := by
  unfold processLineStale loopBody
  by_cases hnl : line = ['\n']
  · rw [if_pos hnl]
    exact ⟨_, rfl, by simp, Or.inl rfl, fun h => by simp at h⟩
  · rw [if_neg hnl]
    by_cases hz : (start line).length = 0
    · rw [if_pos hz]
      exact ⟨_, rfl, by simp, Or.inl rfl, fun h => by simp at h⟩
    · rw [if_neg hz]
      rcases start_head line with hnil | ⟨c, t, hct, hc⟩
      · rw [hnil] at hz; exact absurd rfl hz
      · obtain ⟨st, htok, hres⟩ := tokenize_nonempty (start line) c t hct hc
        obtain ⟨hlen, _, hgood, hlog, _, _⟩ := tokenize_result _ _ htok
        rw [htok]
        simp only
        by_cases hr : st.redirect = -1
        · rw [if_pos hr]
          have hl : st.log = [Action.writeError] := by
            rcases hlog with ⟨_, h⟩ | ⟨h, _⟩
            · exact h
            · rw [hr] at h; rcases h with h | h <;> exact absurd h (by decide)
          refine ⟨_, rfl, by simp [hl], Or.inl rfl, fun _ => ⟨rfl, rfl, fun a ha => ?_⟩⟩
          simp only [hl, List.mem_singleton] at ha
          exact Or.inl ha
        · rw [if_neg hr]
          have h1 : 1 ≤ st.token_count := by
            rcases hres with h | h
            · exact absurd h hr
            · exact h
          have hl : st.log = [] := by
            rcases hlog with ⟨h, _⟩ | ⟨_, h⟩
            · exact absurd h hr
            · exact h
          obtain ⟨cmd, hcmd, _⟩ := hgood 0 (by omega)
          have h32 : st.token.length = 32 := hlen
          have hf0 : readSlot (fillState stale st).token 0 = Slot.str cmd := by
            simp only [fillState]
            rw [readSlot_fillFrom stale st.token 0 0 (by omega), hcmd]
            rfl
          have hf1 : readSlot (fillState stale st).token 1
              = fillSlot stale 1 (readSlot st.token 1) := by
            simp only [fillState]
            rw [readSlot_fillFrom stale st.token 0 1 (by omega)]
          have hf2 : readSlot (fillState stale st).token 2 ≠ Slot.uninit := by
            simp only [fillState]
            rw [readSlot_fillFrom stale st.token 0 2 (by omega)]
            exact fillSlot_ne_uninit _ _ _
          obtain ⟨d1, d2, d3⟩ := dispatch_defined w (fillState stale st) cmd hf0
            (by rw [hf1]; exact fillSlot_ne_uninit _ _ _) hf2 hl
          refine ⟨_, rfl, d1, ?_, d3⟩
          rcases d2 with d2 | ⟨e1, e2, e3, e4, e5⟩
          · exact Or.inl d2
          · refine Or.inr ⟨e1, ⟨st, rfl, hr, ?_⟩, e4, e5⟩
            have hcnt : st.token_count = 1 := by
              by_contra hne
              obtain ⟨t1, ht1, _⟩ := hgood 1 (by omega)
              rw [hf1, ht1] at e3
              simp [fillSlot] at e3
            have htake : acceptedTokens st = [Slot.str cmd] := by
              unfold acceptedTokens
              rw [hcnt]
              exact take_one_of_readSlot st.token _ (by omega) hcmd
            rw [htake]
            rcases e2 with e2 | e2
            · exact Or.inl (by rw [e2])
            · exact Or.inr (by rw [e2])

/-! Accepted redirections and the builtins -/

theorem strsep_append (tok : List Char) (d : Char) (rest : List Char)
    (h : ∀ c ∈ tok, ¬ (isDelim c = true)) (hd : isDelim d = true) :
    strsep (some (tok ++ d :: rest)) = (some tok, some rest) := by
  have h1 : (tok ++ d :: rest).dropWhile (fun c => !isDelim c) = d :: rest := by
    induction tok with
    | nil => simp [List.dropWhile, hd]
    | cons a t ih =>
      have ha : isDelim a = false := by
        cases hx : isDelim a with
        | false => rfl
        | true => exact absurd hx (h a (List.mem_cons_self _ _))
      simp only [List.cons_append, List.dropWhile_cons, ha, Bool.not_false, if_true]
      exact ih (fun c hc => h c (List.mem_cons_of_mem _ hc))
  have h2 : (tok ++ d :: rest).takeWhile (fun c => !isDelim c) = tok := by
    clear h1
    induction tok with
    | nil => simp [List.takeWhile, hd]
    | cons a t ih =>
      have ha : isDelim a = false := by
        cases hx : isDelim a with
        | false => rfl
        | true => exact absurd hx (h a (List.mem_cons_self _ _))
      simp only [List.cons_append, List.takeWhile_cons, ha, Bool.not_false, if_true]
      rw [ih (fun c hc => h c (List.mem_cons_of_mem _ hc))]
  simp only [strsep, h1, h2]

theorem strsep_no_delim (s : List Char) (h : ∀ c ∈ s, ¬ (isDelim c = true)) :
    strsep (some s) = (some s, none) := by
  rcases strsep_some s with ⟨h1, _⟩ | ⟨tok, d, rest, hs, _, _, hd, _⟩
  · exact h1
  · exact absurd hd (h d (by rw [hs]; simp))

theorem wordsOf_all_delim (t : List Char) (h : ∀ c ∈ t, isDelim c = true) : wordsOf t = [] := by
  induction t with
  | nil => decide
  | cons a rest ih =>
    have := wordsOf_split [] a rest (by simp) (h a (List.mem_cons_self _ _))
    simp only [List.nil_append, if_true] at this
    rw [this]
    exact ih (fun c hc => h c (List.mem_cons_of_mem _ hc))

/-- A string that ends in a delimiter splits, at its first delimiter, into a piece
without delimiters and a rest that again is empty or ends in a delimiter. -/
theorem endsDelim_split (pre : List Char) (hne : pre ≠ []) (he : endsDelim pre) :
    ∃ tok d rest, pre = tok ++ d :: rest ∧ (∀ c ∈ tok, ¬ (isDelim c = true))
      ∧ isDelim d = true ∧ endsDelim rest
      ∧ wordsOf pre = (if tok = [] then [] else [tok]) ++ wordsOf rest := by
  rcases strsep_some pre with ⟨h1, h2, _⟩ | ⟨tok, d, rest, hs, h1, h2, hd, hw⟩
  · exfalso
    cases hl : pre.getLast? with
    | none => exact hne (by simpa using hl)
    | some c => exact h2 c (List.mem_of_getLast?_eq_some hl) (he c hl)
  · exact ⟨tok, d, rest, hs, h2, hd, (strsep_ends pre he tok (some rest) h1).2 rest rfl, hw⟩

/-- Words of a concatenation whose first part is empty or ends in a delimiter. -/
theorem wordsOf_append (n : Nat) : ∀ (pre x : List Char), pre.length ≤ n → endsDelim pre →
    wordsOf (pre ++ x) = wordsOf pre ++ wordsOf x := by
  induction n with
  | zero =>
    intro pre x hlen _
    have : pre = [] := List.length_eq_zero.mp (by omega)
    subst this
    have h0 : wordsOf [] = [] := by decide
    simp [h0]
  | succ n ih =>
    intro pre x hlen he
    by_cases hne : pre = []
    · subst hne
      have h0 : wordsOf [] = [] := by decide
      simp [h0]
    · obtain ⟨tok, d, rest, hs, hnd, hd, her, hw⟩ := endsDelim_split pre hne he
      have hl : rest.length ≤ n := by
        rw [hs] at hlen
        simp only [List.length_append, List.length_cons] at hlen
        omega
      rw [hw, hs, List.append_assoc, List.cons_append, wordsOf_split tok d (rest ++ x) hnd hd,
        ih rest x hl her, List.append_assoc]

theorem start_append (body x : List Char) (h : start body ≠ []) :
    start (body ++ x) = start body ++ x := by
  unfold start at h ⊢
  induction body with
  | nil => simp at h
  | cons a t ih =>
    by_cases ha : isspace a = true
    · simp only [List.cons_append, List.dropWhile_cons, ha, if_true] at h ⊢
      exact ih h
    · simp [List.dropWhile_cons, ha]

/-- The loop on a rest of the line made of ordinary tokens, then `>`, one delimiter, a
filename, and nothing but delimiters: the redirection is accepted, the tokens before the
operator are the accepted tokens, and no message is written. -/
theorem tokenizeLoop_redirect (d : Char) (file tail : List Char) (hd : isDelim d = true)
    (hfile : file ≠ [] ∧ ∀ c ∈ file, ¬ (isDelim c = true))
    (htail : ∀ c ∈ tail, isDelim c = true) (fuel : Nat) :
    ∀ (st : TokState) (pre : List Char) (ts : List (List Char)),
    st.working_string = some (pre ++ '>' :: d :: (file ++ tail)) →
    remaining st.working_string ≤ fuel →
    (pre ++ '>' :: d :: (file ++ tail)).length ≤ MAX_COMMAND_SIZE →
    st.token.length = MAX_NUM_ARGUMENTS →
    st.redirect = 0 →
    endsDelim pre → wordsOf pre = ts → ['>'] ∉ ts →
    1 ≤ st.token_count + ts.length →
    st.token_count + ts.length < MAX_NUM_ARGUMENTS →
    ∃ st', tokenizeLoop fuel st = some st' ∧ st'.redirect = 1 ∧ st'.log = st.log
      ∧ st'.outputFile = some file
      ∧ st'.token_count = st.token_count + ts.length
      ∧ acceptedTokens st' = acceptedTokens st ++ ts.map Slot.str := by
  induction fuel with
  | zero =>
    intro st pre ts hws hfuel
    rw [hws] at hfuel
    simp [remaining] at hfuel
  | succ fuel ih =>
    intro st pre ts hws hfuel hsize hlen hred hends hwords hplain hone hroom
    obtain ⟨token, count, ws, redirect, outputFile, log⟩ := st
    simp only at hws hfuel hlen hred hone hroom ⊢
    subst hred
    subst hws
    have hc : count < MAX_NUM_ARGUMENTS := by omega
    by_cases hne : pre = []
    · -- the operator is next
      subst hne
      have hw0 : wordsOf [] = [] := by decide
      rw [hw0] at hwords
      subst hwords
      simp only [List.nil_append, List.length_nil, Nat.add_zero] at hone hsize ⊢
      have hgt : isDelim '>' = false := by decide
      have hsep1 : strsep (some ('>' :: d :: (file ++ tail))) = (some ['>'], some (file ++ tail)) :=
        strsep_append ['>'] d (file ++ tail)
          (by intro c hcm; simp only [List.mem_singleton] at hcm; rw [hcm, hgt]; simp) hd
      have hflen : file.length ≤ MAX_COMMAND_SIZE := by
        simp only [List.length_cons, List.length_append] at hsize
        omega
      have hfdup : strndup file MAX_COMMAND_SIZE = file := by
        unfold strndup; exact List.take_of_length_le hflen
      have hfl : ¬ (file.length = 0) := fun h => hfile.1 (List.length_eq_zero.mp h)
      have hcz : ¬ (count = 0 ∨ (0 : Int) ≠ 0) := by
        intro h
        rcases h with h | h
        · omega
        · exact h rfl
      have hsep2 : ∃ ws2, strsep (some (file ++ tail)) = (some file, ws2) ∧ wordsOpt ws2 = [] := by
        cases tail with
        | nil =>
          refine ⟨none, ?_, rfl⟩
          rw [List.append_nil]
          exact strsep_no_delim file hfile.2
        | cons t0 tl =>
          refine ⟨some tl, strsep_append file t0 tl hfile.2 (htail t0 (List.mem_cons_self _ _)), ?_⟩
          exact wordsOf_all_delim tl (fun c hcm => htail c (List.mem_cons_of_mem _ hcm))
      obtain ⟨ws2, hsep2, hw2⟩ := hsep2
      obtain ⟨ws3, hsep3⟩ := strsep_no_words ws2 hw2
      have hdup1 : strndup ['>'] MAX_COMMAND_SIZE = ['>'] := by decide
      rw [tokenizeLoop, hsep1]
      simp only
      rw [if_pos hc]
      simp only [hdup1]
      rw [if_neg (by decide)]
      simp only [if_true]
      rw [if_neg hcz, hsep2]
      simp only
      rw [if_neg hfl]
      rcases hsep3 with hsep3 | hsep3
      · rw [hsep3]
        refine ⟨_, rfl, rfl, rfl, by simp only [hfdup], rfl, ?_⟩
        simp [acceptedTokens, take_set_self]
      · rw [hsep3]
        simp only
        rw [if_neg (by simp)]
        refine ⟨_, rfl, rfl, rfl, by simp only [hfdup], rfl, ?_⟩
        simp [acceptedTokens, take_set_self]
    · -- a piece of the part before the operator
      obtain ⟨tok, d0, rest, hs, hnd, hd0, her, hw⟩ := endsDelim_split pre hne hends
      have hsep : strsep (some (pre ++ '>' :: d :: (file ++ tail)))
          = (some tok, some (rest ++ '>' :: d :: (file ++ tail))) := by
        rw [hs, List.append_assoc, List.cons_append]
        exact strsep_append tok d0 _ hnd hd0
      have hlt : (rest ++ '>' :: d :: (file ++ tail)).length
          < (pre ++ '>' :: d :: (file ++ tail)).length := by
        rw [hs]; simp only [List.length_append, List.length_cons]; omega
      have htl : tok.length ≤ MAX_COMMAND_SIZE := by
        have : tok.length ≤ (pre ++ '>' :: d :: (file ++ tail)).length := by
          rw [hs]; simp only [List.length_append, List.length_cons]; omega
        omega
      have htok : strndup tok MAX_COMMAND_SIZE = tok := by
        unfold strndup; exact List.take_of_length_le htl
      have hfuel' : remaining (some (rest ++ '>' :: d :: (file ++ tail))) ≤ fuel := by
        simp only [remaining] at hfuel ⊢; omega
      rw [tokenizeLoop, hsep]
      simp only
      rw [if_pos hc]
      simp only [htok]
      by_cases hempty : tok = []
      · subst hempty
        simp only [if_true, List.nil_append] at hw
        simp only [List.length_nil, if_true]
        obtain ⟨st', h1, h2, h3, h4, h5, h6⟩ := ih
          ⟨token.set count Slot.null, count, some (rest ++ '>' :: d :: (file ++ tail)), 0,
            outputFile, log⟩ rest ts rfl hfuel' (by omega) (by simpa using hlen) rfl her
          (by rw [← hw]; exact hwords) hplain hone hroom
        refine ⟨st', h1, h2, h3, h4, h5, ?_⟩
        rw [h6]; simp [acceptedTokens, take_set_self]
      · simp only [hempty, if_false] at hw
        have hl : ¬ (tok.length = 0) := fun h0 => hempty (List.length_eq_zero.mp h0)
        rw [if_neg hl]
        cases ts with
        | nil => rw [hw] at hwords; simp at hwords
        | cons p ts' =>
          rw [hw] at hwords
          simp only [List.singleton_append, List.cons.injEq] at hwords
          obtain ⟨hp, hrw⟩ := hwords
          have hngt : tok ≠ ['>'] := by
            intro h; apply hplain; rw [← hp, h]; simp
          rw [if_neg hngt]
          simp only [List.length_cons] at hone hroom ⊢
          obtain ⟨st', h1, h2, h3, h4, h5, h6⟩ := ih
            ⟨token.set count (Slot.str tok), count + 1,
              some (rest ++ '>' :: d :: (file ++ tail)), 0, outputFile, log⟩ rest ts' rfl
            hfuel' (by omega) (by simpa using hlen) rfl her hrw
            (fun h => hplain (List.mem_cons_of_mem _ h)) (by simp only; omega)
            (by simp only; omega)
          refine ⟨st', h1, h2, h3, h4, by rw [h5]; simp only; omega, ?_⟩
          rw [h6, ← hp]
          simp only [acceptedTokens, List.map_cons]
          rw [take_succ_set _ _ _ (by omega)]
          simp

theorem readSlot_take (token : List Slot) (n j : Nat) (h : j < n) :
    readSlot (token.take n) j = readSlot token j := by
  simp only [readSlot, List.getD_eq_getElem?_getD, List.getElem?_take, h, if_true]

/-- The builtins look at slots 0, 1 and 2 only, and at slot 2 only when slot 1 is not
`NULL`: two states that agree there and on the log are dispatched alike. -/
theorem dispatch_builtin_congr (w : World) (st1 st2 : TokState) (cmd : List Char)
    (hcmd : cmd = "exit".toList ∨ cmd = "quit".toList ∨ cmd = "cd".toList)
    (h0 : readSlot st1.token 0 = Slot.str cmd) (h0' : readSlot st2.token 0 = Slot.str cmd)
    (h1 : readSlot st1.token 1 = readSlot st2.token 1)
    (h2 : readSlot st1.token 1 ≠ Slot.null → readSlot st1.token 2 = readSlot st2.token 2)
    (hlog : st1.log = st2.log) :
    dispatch w st1 = dispatch w st2 := by
  unfold dispatch
  rw [h0, h0', ← h1, hlog]
  simp only
  by_cases hx : cmd = "exit".toList ∨ cmd = "quit".toList
  · rw [if_pos hx, if_pos hx]
  · rw [if_neg hx, if_neg hx]
    have hcd : cmd = "cd".toList := by
      rcases hcmd with h | h | h
      · exact absurd (Or.inl h) hx
      · exact absurd (Or.inr h) hx
      · exact h
    rw [if_pos hcd, if_pos hcd]
    cases hs : readSlot st1.token 1 with
    | uninit => rfl
    | null => rfl
    | str dir =>
      simp only
      rw [← h2 (by rw [hs]; simp)]

/-- A builtin never creates a child, and the shell process makes no call other than
`chdir` and `exit`, and writes messages. -/
theorem dispatch_builtin_quiet (w : World) (st : TokState) (cmd : List Char)
    (hcmd : cmd = "exit".toList ∨ cmd = "quit".toList ∨ cmd = "cd".toList)
    (h0 : readSlot st.token 0 = Slot.str cmd) (hlog : st.log = []) :
    (dispatch w st).child = none
      ∧ ∀ a ∈ (dispatch w st).shell,
          a = Action.writeError ∨ a = Action.exit 0 ∨ ∃ dir, a = Action.chdir dir := by
  unfold dispatch
  rw [h0, hlog]
  simp only [List.nil_append]
  by_cases hx : cmd = "exit".toList ∨ cmd = "quit".toList
  · rw [if_pos hx]
    cases readSlot st.token 1 <;> simp
  · rw [if_neg hx]
    have hcd : cmd = "cd".toList := by
      rcases hcmd with h | h | h
      · exact absurd (Or.inl h) hx
      · exact absurd (Or.inr h) hx
      · exact h
    rw [if_pos hcd]
    cases readSlot st.token 1 with
    | uninit => simp
    | null => simp
    | str dir =>
      cases readSlot st.token 2 with
      | uninit => simp
      | str t => simp
      | null =>
        by_cases hch : w.chdir dir = true
        · simp [hch]
        · simp [hch]

/-- Two tokenizer results with the same accepted tokens, each with the sentinel behind
them unless the array is full, give the builtins the same slots to look at. -/
theorem builtin_slots_agree (st1 st2 : TokState) (cmd : List Char)
    (hcount : st1.token_count = st2.token_count) (h1 : 1 ≤ st1.token_count)
    (hacc : acceptedTokens st1 = acceptedTokens st2)
    (hcmd0 : readSlot st1.token 0 = Slot.str cmd)
    (hs1 : st1.token_count < MAX_NUM_ARGUMENTS →
      readSlot st1.token st1.token_count = Slot.null)
    (hs2 : st2.token_count < MAX_NUM_ARGUMENTS →
      readSlot st2.token st2.token_count = Slot.null) :
    readSlot st2.token 0 = Slot.str cmd
      ∧ readSlot st1.token 1 = readSlot st2.token 1
      ∧ (readSlot st1.token 1 ≠ Slot.null → readSlot st1.token 2 = readSlot st2.token 2) := by
  have hbelow : ∀ j, j < st1.token_count → readSlot st1.token j = readSlot st2.token j := by
    intro j hj
    have e1 := readSlot_take st1.token st1.token_count j hj
    have e2 := readSlot_take st2.token st2.token_count j (by omega)
    unfold acceptedTokens at hacc
    rw [← e1, ← e2, hacc]
  have h32 : MAX_NUM_ARGUMENTS = 32 := rfl
  refine ⟨by rw [← hbelow 0 (by omega)]; exact hcmd0, ?_, ?_⟩
  · by_cases hc : 1 < st1.token_count
    · exact hbelow 1 hc
    · have he : st1.token_count = 1 := by omega
      have a1 := hs1 (by omega)
      have a2 := hs2 (by omega)
      rw [he] at a1
      rw [← hcount, he] at a2
      rw [a1, a2]
  · intro hnn
    by_cases hc : 2 < st1.token_count
    · exact hbelow 2 hc
    · by_cases he : st1.token_count = 2
      · have a1 := hs1 (by omega)
        have a2 := hs2 (by omega)
        rw [he] at a1
        rw [← hcount, he] at a2
        rw [a1, a2]
      · have he1 : st1.token_count = 1 := by omega
        have a1 := hs1 (by omega)
        rw [he1] at a1
        exact absurd a1 hnn

/-- The tokenizer on a line without `>` among its first 32 tokens, in the form the
comparisons below need. -/
theorem tokenize_plain (s : List Char) (hlen : s.length ≤ MAX_COMMAND_SIZE)
    (hplain : ['>'] ∉ (wordsOf s).take MAX_NUM_ARGUMENTS) :
    ∃ st, tokenize s = some st ∧ st.redirect = 0 ∧ st.log = []
      ∧ st.token_count = ((wordsOf s).take MAX_NUM_ARGUMENTS).length
      ∧ acceptedTokens st = ((wordsOf s).take MAX_NUM_ARGUMENTS).map Slot.str := by
  obtain ⟨st, h1, h2, h3, _, _, h6, h7⟩ := tokenizeLoop_plain (s.length + 2)
    (initState s) (by simp [initState, remaining]) (by simp [initState])
    (by intro r hr; simp only [initState, Option.some.injEq] at hr; rw [← hr]; exact hlen)
    (by
      intro t ht
      simp only [initState, wordsOpt, Nat.sub_zero] at ht
      intro h
      exact hplain (h ▸ ht))
  simp only [initState, wordsOpt, acceptedTokens, List.take_zero, List.nil_append,
    Nat.zero_add, Nat.sub_zero] at h2 h3 h6 h7
  exact ⟨st, h1, h2, h3, h7, h6⟩

/-- The tokenizer on a line that ends in an accepted redirection: ordinary tokens
(fewer than 32, at least one), `>`, one delimiter, a filename, then only delimiters. -/
theorem tokenize_redirect (pre file tail : List Char) (d : Char)
    (hlen : (pre ++ '>' :: d :: (file ++ tail)).length ≤ MAX_COMMAND_SIZE)
    (hends : endsDelim pre) (hplain : ['>'] ∉ wordsOf pre)
    (h1 : 1 ≤ (wordsOf pre).length) (h2 : (wordsOf pre).length < MAX_NUM_ARGUMENTS)
    (hd : isDelim d = true) (hfile : file ≠ [] ∧ ∀ c ∈ file, ¬ (isDelim c = true))
    (htail : ∀ c ∈ tail, isDelim c = true) :
    ∃ st, tokenize (pre ++ '>' :: d :: (file ++ tail)) = some st ∧ st.redirect = 1
      ∧ st.log = [] ∧ st.outputFile = some file
      ∧ st.token_count = (wordsOf pre).length
      ∧ acceptedTokens st = (wordsOf pre).map Slot.str := by
  obtain ⟨st, e1, e2, e3, e4, e5, e6⟩ := tokenizeLoop_redirect d file tail hd hfile htail
    ((pre ++ '>' :: d :: (file ++ tail)).length + 2)
    (initState (pre ++ '>' :: d :: (file ++ tail))) pre (wordsOf pre) rfl
    (by simp [initState, remaining]) hlen (by simp [initState]) rfl hends rfl hplain
    (by simpa [initState] using h1) (by simpa [initState] using h2)
  simp only [initState, acceptedTokens, List.take_zero, List.nil_append, Nat.zero_add]
    at e3 e5 e6
  exact ⟨st, e1, e2, e3, e4, e5, e6⟩

/-! Lines that meet no unwritten slot -/

/-- When the code after the tokenizer meets no unwritten slot, what the unwritten slots
hold does not matter to the shell process: same calls, same end of the iteration, a
child in the one case exactly when in the other. -/
theorem dispatch_fill (w : World) (stale : Nat → Option (List Char)) (st : TokState)
    (hlen : st.token.length = MAX_NUM_ARGUMENTS)
    (hdef : (dispatch w st).control ≠ Control.undefined) :
    (dispatch w (fillState stale st)).shell = (dispatch w st).shell
      ∧ (dispatch w (fillState stale st)).control = (dispatch w st).control
      ∧ ((dispatch w (fillState stale st)).child = none ↔ (dispatch w st).child = none) := by
  have h32 : st.token.length = 32 := hlen
  have hf : ∀ i, i < 32 → readSlot (fillState stale st).token i
      = fillSlot stale i (readSlot st.token i) := by
    intro i hi
    simp only [fillState]
    rw [readSlot_fillFrom stale st.token 0 i (by omega), Nat.zero_add]
  have hlog : (fillState stale st).log = st.log := rfl
  cases hs0 : readSlot st.token 0 with
  | uninit => exact absurd (by unfold dispatch; rw [hs0]) hdef
  | null => exact absurd (by unfold dispatch; rw [hs0]) hdef
  | str cmd =>
    have hf0 : readSlot (fillState stale st).token 0 = Slot.str cmd := by
      rw [hf 0 (by omega), hs0]; rfl
    by_cases hx : cmd = "exit".toList ∨ cmd = "quit".toList
    · cases hs1 : readSlot st.token 1 with
      | uninit => exact absurd (by unfold dispatch; rw [hs0]; simp only [hx, if_true, hs1]) hdef
      | null =>
        have hf1 : readSlot (fillState stale st).token 1 = Slot.null := by
          rw [hf 1 (by omega), hs1]; rfl
        unfold dispatch
        rw [hs0, hf0]
        simp only [hx, if_true, hs1, hf1, hlog, and_self]
      | str t =>
        have hf1 : readSlot (fillState stale st).token 1 = Slot.str t := by
          rw [hf 1 (by omega), hs1]; rfl
        unfold dispatch
        rw [hs0, hf0]
        simp only [hx, if_true, hs1, hf1, hlog, and_self]
    · by_cases hcd : cmd = "cd".toList
      · subst hcd
        have hne : ¬ ("cd".toList = "exit".toList ∨ "cd".toList = "quit".toList) := by decide
        cases hs1 : readSlot st.token 1 with
        | uninit =>
          exact absurd (by unfold dispatch; rw [hs0]; simp only [hne, if_false, if_true, hs1])
            hdef
        | null =>
          have hf1 : readSlot (fillState stale st).token 1 = Slot.null := by
            rw [hf 1 (by omega), hs1]; rfl
          unfold dispatch
          rw [hs0, hf0]
          simp only [hne, if_false, if_true, hs1, hf1, hlog, and_self]
        | str dir =>
          have hf1 : readSlot (fillState stale st).token 1 = Slot.str dir := by
            rw [hf 1 (by omega), hs1]; rfl
          cases hs2 : readSlot st.token 2 with
          | uninit =>
            exact absurd (by
              unfold dispatch; rw [hs0]; simp only [hne, if_false, if_true, hs1, hs2]) hdef
          | null =>
            have hf2 : readSlot (fillState stale st).token 2 = Slot.null := by
              rw [hf 2 (by omega), hs2]; rfl
            unfold dispatch
            rw [hs0, hf0]
            simp only [hne, if_false, if_true, hs1, hf1, hs2, hf2, hlog, and_self]
          | str t =>
            have hf2 : readSlot (fillState stale st).token 2 = Slot.str t := by
              rw [hf 2 (by omega), hs2]; rfl
            unfold dispatch
            rw [hs0, hf0]
            simp only [hne, if_false, if_true, hs1, hf1, hs2, hf2, hlog, and_self]
      · have hnb : cmd ≠ "exit".toList ∧ cmd ≠ "quit".toList ∧ cmd ≠ "cd".toList :=
          ⟨fun h => hx (Or.inl h), fun h => hx (Or.inr h), hcd⟩
        rw [dispatch_external w st cmd hs0 hnb,
          dispatch_external w (fillState stale st) cmd hf0 hnb, hlog]
        by_cases hck : (search w cmd).check = false
        · simp only [hck, if_true, and_self]
        · by_cases hfk : w.forkOk = true
          · simp [hck, hfk]
          · simp [hck, hfk]

/-- A branch on an unwritten slot: nothing was done for the line before it. -/
theorem dispatch_undefined (w : World) (st : TokState)
    (h : (dispatch w st).control = Control.undefined) :
    (dispatch w st).shell = st.log ∧ (dispatch w st).child = none := by
  revert h
  unfold dispatch
  cases readSlot st.token 0 with
  | uninit => intro _; exact ⟨rfl, rfl⟩
  | null => intro _; exact ⟨rfl, rfl⟩
  | str cmd =>
    simp only
    by_cases hx : cmd = "exit".toList ∨ cmd = "quit".toList
    · rw [if_pos hx]
      cases readSlot st.token 1 <;> simp
    · rw [if_neg hx]
      by_cases hcd : cmd = "cd".toList
      · rw [if_pos hcd]
        cases readSlot st.token 1 with
        | uninit => simp
        | null => simp
        | str dir =>
          cases readSlot st.token 2 with
          | uninit => simp
          | null => by_cases hch : w.chdir dir = true <;> simp [hch]
          | str t => simp
      · rw [if_neg hcd]
        by_cases hck : (search w cmd).check = false
        · simp [hck]
        · by_cases hfk : w.forkOk = true
          · simp [hck, hfk]
          · simp [hck, hfk]

/-- The same for a whole line: where `processLine` meets no unwritten slot, the shell
process does the same whatever the array held before. -/
theorem processLine_refines (w : World) (stale : Nat → Option (List Char))
    (line : List Char) (r : LineResult) (h : processLine w line = some r)
    (hdef : r.control ≠ Control.undefined) :
    ∃ r', processLineStale w stale line = some r' ∧ r'.shell = r.shell
      ∧ r'.control = r.control ∧ (r'.child = none ↔ r.child = none) := by
  rw [processLine_eq_loopBody] at h
  unfold processLineStale
  unfold loopBody at h ⊢
  by_cases hnl : line = ['\n']
  · rw [if_pos hnl] at h ⊢
    exact ⟨r, h, rfl, rfl, Iff.rfl⟩
  · rw [if_neg hnl] at h ⊢
    by_cases hz : (start line).length = 0
    · rw [if_pos hz] at h ⊢
      exact ⟨r, h, rfl, rfl, Iff.rfl⟩
    · rw [if_neg hz] at h ⊢
      obtain ⟨st, htok⟩ := tokenize_total (start line)
      obtain ⟨hlen, _⟩ := tokenize_result _ _ htok
      rw [htok] at h ⊢
      simp only at h ⊢
      by_cases hr : st.redirect = -1
      · rw [if_pos hr] at h ⊢
        exact ⟨r, h, rfl, rfl, Iff.rfl⟩
      · rw [if_neg hr] at h ⊢
        simp only [Option.some.injEq] at h
        subst h
        obtain ⟨a, b, c⟩ := dispatch_fill w stale st hlen hdef
        exact ⟨_, rfl, a, b, c⟩

/-! The claims C1 to C10 -/

/-- C1. For every input line whose trimmed form has at most 32 tokens, none of them `>`,
the tokenizer loop ends without an error (no message written, `redirect` stays 0, no
output file) and the accepted tokens are exactly the maximal non-empty runs of
characters other than space, tab and newline of the trimmed line, in order. -/
theorem tokenize_plain_line (line : List Char) (hline : InputLine line)
    (hcount : (wordsOf (start line)).length ≤ MAX_NUM_ARGUMENTS)
    (hplain : ['>'] ∉ wordsOf (start line)) :
    ∃ st, tokenize (start line) = some st
      ∧ st.redirect = 0 ∧ st.log = [] ∧ st.outputFile = none
      ∧ st.token_count = (wordsOf (start line)).length
      ∧ acceptedTokens st = (wordsOf (start line)).map Slot.str := by
  have hlen : (start line).length ≤ MAX_COMMAND_SIZE := by
    have h1 := start_length_le line
    have h2 : line.length ≤ MAX_COMMAND_SIZE - 1 := hline
    simp only [MAX_COMMAND_SIZE] at h2 ⊢
    omega
  obtain ⟨st, h1, h2, h3, h4, _, h6, h7⟩ := tokenizeLoop_plain ((start line).length + 2)
    (initState (start line)) (by simp [initState, remaining]) (by simp [initState])
    (by intro s hs; simp only [initState, Option.some.injEq] at hs; rw [← hs]; exact hlen)
    (by
      intro t ht
      simp only [initState, wordsOpt] at ht
      intro h
      exact hplain (h ▸ List.mem_of_mem_take ht))
  have htake : (wordsOf (start line)).take (MAX_NUM_ARGUMENTS - 0) = wordsOf (start line) :=
    List.take_of_length_le (by simpa using hcount)
  simp only [initState, wordsOpt, htake, acceptedTokens, List.take_zero, List.nil_append,
    Nat.zero_add] at h2 h3 h4 h6 h7
  exact ⟨st, h1, h2, h3, h4, h7, h6⟩

/-- Witness of C1 on the line `  ls -l<TAB>/tmp<NL>`. -/
theorem tokenize_plain_line_witness :
    InputLine "  ls -l\t/tmp\n".toList
    ∧ (wordsOf (start "  ls -l\t/tmp\n".toList)).length ≤ MAX_NUM_ARGUMENTS
    ∧ ['>'] ∉ wordsOf (start "  ls -l\t/tmp\n".toList)
    ∧ ∃ st, tokenize (start "  ls -l\t/tmp\n".toList) = some st
      ∧ st.redirect = 0 ∧ st.log = [] ∧ st.outputFile = none
      ∧ st.token_count = (wordsOf (start "  ls -l\t/tmp\n".toList)).length
      ∧ acceptedTokens st = (wordsOf (start "  ls -l\t/tmp\n".toList)).map Slot.str :=
  ⟨by decide, by decide, by decide,
    tokenize_plain_line "  ls -l\t/tmp\n".toList (by decide) (by decide) (by decide)⟩

/-- C2, at the line `ls >  out<NL>` (two spaces between the operator and the filename).
The line is one token, the operator and one filename, separated by runs of spaces, yet
the tokenizer takes the empty piece between the two spaces for the filename and reports
a parse error: one message, `redirect = -1`, no redirect target, and the line is dropped. -/
theorem redirect_two_delimiters_before_file (w : World) :
    InputLine "ls >  out\n".toList
    ∧ wordsOf (start "ls >  out\n".toList) = ["ls".toList, ['>'], "out".toList]
    ∧ (∃ st ∈ tokenize (start "ls >  out\n".toList),
        st.redirect = -1 ∧ st.outputFile = none ∧ st.log = [Action.writeError])
    ∧ processLine w "ls >  out\n".toList
        = some { shell := [Action.writeError], child := none, control := Control.next } :=
  ⟨by decide, by decide, by decide, by rfl⟩

/-- C3, at the line `ls > out  x<NL>` (two spaces between the filename and a further
token).  The tokenizer reports no error: it accepts the redirection to `out`, keeps the
token list `ls`, and the further token `x` is never looked at; with `/bin/ls` executable
the command is launched with its output redirected. -/
theorem redirect_extra_token_after_two_delimiters :
    InputLine "ls > out  x\n".toList
    ∧ wordsOf (start "ls > out  x\n".toList) = ["ls".toList, ['>'], "out".toList, ['x']]
    ∧ (∃ st ∈ tokenize (start "ls > out  x\n".toList),
        st.redirect = 1 ∧ st.log = [] ∧ st.outputFile = some "out".toList
          ∧ acceptedTokens st = [Slot.str "ls".toList])
    ∧ processLine (worldWith ["/bin/ls".toList]) "ls > out  x\n".toList
        = some { shell := [Action.access "/bin/ls".toList, Action.fork, Action.waitpid],
                 child := some [Action.openFile (some "out".toList), Action.dup2 3 1,
                   Action.dup2 3 2, Action.close 3,
                   Action.execv "/bin/ls".toList (some ["ls".toList])],
                 control := Control.next } := by
  decide

/-- C4, at the line `ls > out  ><NL>`: its last token is `>`, preceded by three tokens.
No error message is written; the redirection to `out` is accepted, the path search runs
and, with `/bin/ls` executable, the command is launched and the file opened.  (For lines
whose tokens before the final `>` are ordinary, and for lines that start with `>`, the
one error and nothing else is what happens: `redirect_without_target`.) -/
theorem redirect_second_operator_accepted :
    InputLine "ls > out  >\n".toList
    ∧ wordsOf (start "ls > out  >\n".toList) = ["ls".toList, ['>'], "out".toList] ++ [['>']]
    ∧ (∃ st ∈ tokenize (start "ls > out  >\n".toList), st.redirect = 1 ∧ st.log = [])
    ∧ processLine (worldWith ["/bin/ls".toList]) "ls > out  >\n".toList
        = some { shell := [Action.access "/bin/ls".toList, Action.fork, Action.waitpid],
                 child := some [Action.openFile (some "out".toList), Action.dup2 3 1,
                   Action.dup2 3 2, Action.close 3,
                   Action.execv "/bin/ls".toList (some ["ls".toList])],
                 control := Control.next } := by
  decide

/-- C5. For every input line whose trimmed form has more than 32 tokens, none of the
first 32 being `>`, the tokenizer loop ends without an error and the 32-slot array holds
exactly the first 32 tokens in order, whatever follows the 32nd. -/
theorem tokenize_excess_tokens (line : List Char) (hline : InputLine line)
    (hmore : MAX_NUM_ARGUMENTS < (wordsOf (start line)).length)
    (hplain : ['>'] ∉ (wordsOf (start line)).take MAX_NUM_ARGUMENTS) :
    ∃ st, tokenize (start line) = some st
      ∧ st.redirect = 0 ∧ st.log = [] ∧ st.outputFile = none
      ∧ st.token_count = MAX_NUM_ARGUMENTS
      ∧ st.token = ((wordsOf (start line)).take MAX_NUM_ARGUMENTS).map Slot.str := by
  have hlen : (start line).length ≤ MAX_COMMAND_SIZE := by
    have h1 := start_length_le line
    have h2 : line.length ≤ MAX_COMMAND_SIZE - 1 := hline
    simp only [MAX_COMMAND_SIZE] at h2 ⊢
    omega
  obtain ⟨st, h1, h2, h3, h4, h5, h6, h7⟩ := tokenizeLoop_plain ((start line).length + 2)
    (initState (start line)) (by simp [initState, remaining]) (by simp [initState])
    (by intro s hs; simp only [initState, Option.some.injEq] at hs; rw [← hs]; exact hlen)
    (by
      intro t ht
      simp only [initState, wordsOpt, Nat.sub_zero] at ht
      intro h
      exact hplain (h ▸ ht))
  simp only [initState, wordsOpt, acceptedTokens, List.take_zero, List.nil_append,
    Nat.zero_add, Nat.sub_zero] at h2 h3 h4 h6 h7
  have hcnt : st.token_count = MAX_NUM_ARGUMENTS := by
    rw [h7, List.length_take]; omega
  refine ⟨st, h1, h2, h3, h4, hcnt, ?_⟩
  rw [← h6, hcnt, ← h5]
  exact (List.take_length _).symm

set_option maxRecDepth 4000 in
/-- Witness of C5 on a line of 34 tokens. -/
theorem tokenize_excess_tokens_witness :
    InputLine longLine
    ∧ MAX_NUM_ARGUMENTS < (wordsOf (start longLine)).length
    ∧ ['>'] ∉ (wordsOf (start longLine)).take MAX_NUM_ARGUMENTS
    ∧ ∃ st, tokenize (start longLine) = some st
      ∧ st.redirect = 0 ∧ st.log = [] ∧ st.outputFile = none
      ∧ st.token_count = MAX_NUM_ARGUMENTS
      ∧ st.token = ((wordsOf (start longLine)).take MAX_NUM_ARGUMENTS).map Slot.str :=
  ⟨by decide, by decide, by decide,
    tokenize_excess_tokens longLine (by decide) (by decide) (by decide)⟩

set_option maxRecDepth 4000 in
/-- C6, at a line of exactly 32 tokens and at the line `ls` without a line terminator.
Both tokenize without a parse error.  For the first, all 32 slots hold tokens, no slot of
the array is `NULL`, and the slot after the last token is outside the array, so the
argument vector read by `execv` has no terminator.  For the second, slot 1, right after
the only token, was never written.  (With fewer than 32 tokens and a delimiter at the
end of the line, or an accepted redirection, the sentinel is in place: `sentinel_stored`.) -/
theorem full_array_has_no_sentinel :
    InputLine fullLine
    ∧ (∃ st ∈ tokenize (start fullLine), st.redirect = 0 ∧ st.log = []
        ∧ st.token_count = MAX_NUM_ARGUMENTS ∧ st.token.length = MAX_NUM_ARGUMENTS
        ∧ Slot.null ∉ st.token ∧ readSlot st.token st.token_count = Slot.uninit
        ∧ argvOf st.token = none)
    ∧ (∃ st ∈ tokenize (start "ls".toList), st.redirect = 0 ∧ st.log = []
        ∧ st.token_count = 1 ∧ readSlot st.token st.token_count = Slot.uninit
        ∧ argvOf st.token = none) := by
  decide

/-- C7, at the line `exit` without a line terminator (the last line of a batch file
that does not end in a newline).  The token list holds no further token, but the
tokenizer never wrote slot 1, so the test `token[1] != NULL` reads an indeterminate
pointer: the shell is not bound to terminate.  With the terminator, `exit<NL>`, it
terminates with status 0.  (For lines that end in a delimiter or carry an accepted
redirection the builtin does what the claim says: `exit_quit_terminated`.) -/
theorem exit_unterminated_line (w : World) :
    (∃ st ∈ tokenize (start "exit".toList),
        st.redirect = 0 ∧ acceptedTokens st = [Slot.str "exit".toList]
          ∧ readSlot st.token 1 = Slot.uninit)
    ∧ processLine w "exit".toList
        = some { shell := [], child := none, control := Control.undefined }
    ∧ processLine w "exit\n".toList
        = some { shell := [Action.exit 0], child := none, control := Control.exit 0 } :=
  ⟨by decide, by rfl, by rfl⟩

/-- C8, at the lines `cd /tmp` and `cd` without a line terminator.  In the first the
token list has exactly one argument, but slot 2 was never written, so `token[2] != NULL`
reads an indeterminate pointer and no directory change is guaranteed; in the second
slot 1 was never written, so `token[1] == NULL` reads an indeterminate pointer.  With
the terminator, `cd /tmp<NL>` makes the one `chdir` call.  (For lines that end in a
delimiter or carry an accepted redirection the builtin does what the claim says:
`cd_terminated`.) -/
theorem cd_unterminated_line (w : World) :
    (∃ st ∈ tokenize (start "cd /tmp".toList),
        st.redirect = 0 ∧ acceptedTokens st = [Slot.str "cd".toList, Slot.str "/tmp".toList]
          ∧ readSlot st.token 2 = Slot.uninit)
    ∧ processLine w "cd /tmp".toList
        = some { shell := [], child := none, control := Control.undefined }
    ∧ processLine w "cd".toList
        = some { shell := [], child := none, control := Control.undefined }
    ∧ processLine (worldWith []) "cd /tmp\n".toList
        = some { shell := [Action.chdir "/tmp".toList], child := none,
                 control := Control.next } :=
  ⟨by decide, by rfl, by rfl, by decide⟩

/-- C9. For every command name other than `exit`, `quit`, `cd` that is short enough for
each of the four candidate paths to fit the 255-byte buffer, and every executability
test: the search succeeds exactly when one of `/bin/`, `/usr/bin/`, `/usr/local/bin/`,
`./` followed by the name is executable; the buffer then holds the concatenation for the
first such directory in that order; and that buffer is the path the child passes to
`execv`. -/
theorem search_first_executable (w : World) (cmd : List Char)
    (hnb : cmd ≠ "exit".toList ∧ cmd ≠ "quit".toList ∧ cmd ≠ "cd".toList)
    (hfit : ∀ dir ∈ pathDir, (dir ++ cmd).length + 1 ≤ MAX_COMMAND_SIZE) :
    ((search w cmd).check = true ↔ ∃ dir ∈ pathDir, w.access (dir ++ cmd) = true)
    ∧ (∀ before dir after, pathDir = before ++ dir :: after →
        (∀ b ∈ before, w.access (b ++ cmd) = false) → w.access (dir ++ cmd) = true →
        (search w cmd).path = dir ++ cmd)
    ∧ (∀ st, readSlot st.token 0 = Slot.str cmd → (search w cmd).check = true →
        w.forkOk = true →
        (dispatch w st).child = some (childRun w (search w cmd).path st)
          ∧ Action.execv (search w cmd).path (argvOf st.token)
              ∈ childRun w (search w cmd).path st) := by
  refine ⟨?_, ?_, ?_⟩
  · unfold search
    rw [searchLoop_check_iff]
    constructor
    · rintro ⟨dir, hdir, hacc⟩
      exact ⟨dir, hdir, by rwa [snprintf_fits dir cmd (hfit dir hdir)] at hacc⟩
    · rintro ⟨dir, hdir, hacc⟩
      exact ⟨dir, hdir, by rwa [snprintf_fits dir cmd (hfit dir hdir)]⟩
  · intro before dir after hsplit hb hd
    have hmem : dir ∈ pathDir := by rw [hsplit]; simp
    have hbm : ∀ b ∈ before, b ∈ pathDir := by
      intro b hb'; rw [hsplit]; simp [hb']
    unfold search
    rw [hsplit]
    rw [(searchLoop_first w cmd before dir after []
      (fun b hb' => by rw [snprintf_fits b cmd (hfit b (hbm b hb'))]; exact hb b hb')
      (by rw [snprintf_fits dir cmd (hfit dir hmem)]; exact hd)).2.1]
    exact snprintf_fits dir cmd (hfit dir hmem)
  · intro st h0 hcheck hfork
    refine ⟨?_, childRun_execv w _ st⟩
    rw [dispatch_external w st cmd h0 hnb]
    simp [hcheck, hfork]

/-- Witness of C9: `env`, executable in `/usr/bin/` and in `./`, resolves to `/usr/bin/env`. -/
theorem search_first_executable_witness :
    (∀ dir ∈ pathDir, (dir ++ "env".toList).length + 1 ≤ MAX_COMMAND_SIZE)
    ∧ (search (worldWith ["/usr/bin/env".toList, "./env".toList]) "env".toList).check = true
    ∧ (search (worldWith ["/usr/bin/env".toList, "./env".toList]) "env".toList).path
        = "/usr/bin/env".toList :=
  have h := search_first_executable (worldWith ["/usr/bin/env".toList, "./env".toList])
    "env".toList (by decide) (by decide)
  ⟨by decide, h.1.mpr ⟨"/usr/bin/".toList, by decide, by decide⟩,
    h.2.1 ["/bin/".toList] "/usr/bin/".toList ["/usr/local/bin/".toList, "./".toList]
      (by decide) (by decide) (by decide)⟩

/-- Resolution failure, stated on the paths the code tests.  For every input line whose
first token is none of `exit`, `quit`, `cd`, when the executability test fails for each
of the four paths that `snprintf` leaves in the buffer, handling the line writes exactly
one error message, makes no call other than the `access` tests (no fork, no open, no
chdir, no exit), creates no child, and goes on to the next line. -/
theorem unresolved_command (w : World) (line cmd : List Char) (hline : InputLine line)
    (hfirst : (wordsOf (start line)).head? = some cmd)
    (hnb : cmd ≠ "exit".toList ∧ cmd ≠ "quit".toList ∧ cmd ≠ "cd".toList)
    (hno : ∀ dir ∈ pathDir, w.access (snprintf MAX_COMMAND_SIZE dir cmd) = false) :
    ∃ r, processLine w line = some r ∧ r.control = Control.next ∧ r.child = none
      ∧ r.shell.count Action.writeError = 1
      ∧ ∀ a ∈ r.shell, a = Action.writeError ∨ ∃ p, a = Action.access p := by
  have hlen : (start line).length ≤ MAX_COMMAND_SIZE := by
    have h1 := start_length_le line
    have h2 : line.length ≤ MAX_COMMAND_SIZE - 1 := hline
    simp only [MAX_COMMAND_SIZE] at h2 ⊢
    omega
  rcases start_head line with hnil | ⟨c, t, hct, hc⟩
  · rw [hnil] at hfirst
    have hw0 : wordsOf [] = [] := by decide
    rw [hw0] at hfirst
    simp at hfirst
  · obtain ⟨cmd', more, st, hw, htok, _, _, hres⟩ := tokenize_first (start line) c t hct hc hlen
    have hcmd : cmd' = cmd := by
      rw [hw] at hfirst
      simpa using hfirst
    subst hcmd
    have hnl : line ≠ ['\n'] := by
      intro h
      have h0 : start ['\n'] = [] := by decide
      rw [h, h0] at hct
      exact absurd hct (by simp)
    have hpos : ¬ ((start line).length = 0) := by
      rw [hct]; simp
    unfold processLine
    simp only [hnl, hpos, if_false, htok]
    rcases hres with ⟨hr, hlog⟩ | ⟨hr, hlog, h0, _⟩
    · refine ⟨{ shell := st.log, child := none, control := Control.next },
        by simp only [hr, if_true], rfl, rfl, ?_, ?_⟩
      · simp [hlog]
      · simp [hlog]
    · have hne : ¬ (st.redirect = -1) := by
        rcases hr with hr | hr <;> rw [hr] <;> decide
      have hs := searchLoop_none w cmd' pathDir [] hno
      refine ⟨dispatch w st, by simp only [hne, if_false], ?_, ?_, ?_, ?_⟩ <;>
        rw [dispatch_external w st cmd' h0 hnb] <;>
        simp only [search, hs.1, if_true, hlog, hs.2, List.nil_append]
      · simp [List.count_eq_zero]
      · intro a ha
        simp only [List.mem_append, List.mem_map, List.mem_singleton] at ha
        rcases ha with ⟨d, _, rfl⟩ | rfl
        · exact Or.inr ⟨_, rfl⟩
        · exact Or.inl rfl

/-- The line `nosuch -x > out<NL>` in a world without executables, as an instance of
`unresolved_command`. -/
theorem unresolved_command_witness :
    InputLine "nosuch -x > out\n".toList
    ∧ (wordsOf (start "nosuch -x > out\n".toList)).head? = some "nosuch".toList
    ∧ (∀ dir ∈ pathDir, bareWorld.access (snprintf MAX_COMMAND_SIZE dir "nosuch".toList) = false)
    ∧ ∃ r, processLine bareWorld "nosuch -x > out\n".toList = some r
      ∧ r.control = Control.next ∧ r.child = none
      ∧ r.shell.count Action.writeError = 1
      ∧ ∀ a ∈ r.shell, a = Action.writeError ∨ ∃ p, a = Action.access p :=
  ⟨by decide, by decide, by decide,
    unresolved_command bareWorld "nosuch -x > out\n".toList "nosuch".toList
      (by decide) (by decide) (by decide) (by decide)⟩

/-- Resolution failure for names that fit the path buffer.  For every input line whose
first token is none of `exit`, `quit`, `cd`, is at most 239 bytes long and names no
executable file in any of the four directories (directory followed by the name), handling
the line writes exactly one error message, makes no other call than the `access` tests,
creates no child, and goes on to the next line. -/
theorem unresolved_command_fits (w : World) (line cmd : List Char) (hline : InputLine line)
    (hfirst : (wordsOf (start line)).head? = some cmd)
    (hnb : cmd ≠ "exit".toList ∧ cmd ≠ "quit".toList ∧ cmd ≠ "cd".toList)
    (hfit : cmd.length ≤ 239)
    (hno : ∀ dir ∈ pathDir, w.access (dir ++ cmd) = false) :
    ∃ r, processLine w line = some r ∧ r.control = Control.next ∧ r.child = none
      ∧ r.shell.count Action.writeError = 1
      ∧ ∀ a ∈ r.shell, a = Action.writeError ∨ ∃ p, a = Action.access p := by
  refine unresolved_command w line cmd hline hfirst hnb (fun dir hdir => ?_)
  have hlen : (dir ++ cmd).length + 1 ≤ MAX_COMMAND_SIZE := by
    have hd : dir.length ≤ 15 := by
      simp only [pathDir, List.mem_cons, List.mem_singleton, List.not_mem_nil, or_false] at hdir
      rcases hdir with rfl | rfl | rfl | rfl <;> decide
    simp only [List.length_append, MAX_COMMAND_SIZE]
    omega
  rw [snprintf_fits dir cmd hlen]
  exact hno dir hdir

set_option maxRecDepth 100000 in
/-- C10, at the line made of a command name of 246 bytes followed by ` > out` and a
newline (253 characters), when the only executable file is `/usr/bin/` followed by the
first 245 bytes of the name.  The first token is none of `exit`, `quit`, `cd`, and no
directory followed by the name is executable; yet the shell writes no error message: it
tests `/bin/` with the whole name, then the path `snprintf` cut to 254 bytes, finds that
one executable, forks, and the child opens the redirect file and executes the shorter
path.  (For names of at most 239 bytes the line gets the one error message and nothing
else: `unresolved_command_fits`.) -/
theorem unresolved_long_name_launched :
    InputLine (midName ++ " > out\n".toList)
    ∧ (wordsOf (start (midName ++ " > out\n".toList))).head? = some midName
    ∧ (midName ≠ "exit".toList ∧ midName ≠ "quit".toList ∧ midName ≠ "cd".toList)
    ∧ (∀ dir ∈ pathDir, (worldWith [cutUsrPath]).access (dir ++ midName) = false)
    ∧ processLine (worldWith [cutUsrPath]) (midName ++ " > out\n".toList)
        = some { shell := [Action.access ("/bin/".toList ++ midName),
                           Action.access cutUsrPath, Action.fork, Action.waitpid],
                 child := some [Action.openFile (some "out".toList), Action.dup2 3 1,
                                Action.dup2 3 2, Action.close 3,
                                Action.execv cutUsrPath (some [midName])],
                 control := Control.next } := by
  decide

/-- The line `exit` without a line terminator when slot 1 still holds a pointer from
an earlier line: the shell writes the error message and reads on. -/
theorem exit_unterminated_stale (w : World) :
    processLineStale w (fun _ => some ['x']) "exit".toList
      = some { shell := [Action.writeError], child := none, control := Control.next } := by
  rfl

/-- The line `cd /tmp` without a line terminator when slot 2 still holds a pointer from
an earlier line: the shell writes the error message and makes no `chdir` call. -/
theorem cd_unterminated_stale (w : World) :
    processLineStale w (fun _ => some ['x']) "cd /tmp".toList
      = some { shell := [Action.writeError], child := none, control := Control.next } := by
  rfl

/-- A line whose handling branches on an unwritten slot: nothing was done for it. -/
theorem processLine_undefined (w : World) (line : List Char) (r : LineResult)
    (h : processLine w line = some r) (hu : r.control = Control.undefined) :
    r.shell = [] ∧ r.child = none := by
  rw [processLine_eq_loopBody] at h
  unfold loopBody at h
  by_cases hnl : line = ['\n']
  · rw [if_pos hnl] at h
    simp only [Option.some.injEq] at h
    rw [← h] at hu; simp at hu
  · rw [if_neg hnl] at h
    by_cases hz : (start line).length = 0
    · rw [if_pos hz] at h
      simp only [Option.some.injEq] at h
      rw [← h] at hu; simp at hu
    · rw [if_neg hz] at h
      obtain ⟨st, htok⟩ := tokenize_total (start line)
      obtain ⟨_, _, _, hlog, _⟩ := tokenize_result _ _ htok
      rw [htok] at h
      simp only at h
      by_cases hr : st.redirect = -1
      · rw [if_pos hr] at h
        simp only [Option.some.injEq] at h
        rw [← h] at hu; simp at hu
      · rw [if_neg hr] at h
        simp only [Option.some.injEq] at h
        subst h
        have hl : st.log = [] := by
          rcases hlog with ⟨h, _⟩ | ⟨_, h⟩
          · exact absurd h hr
          · exact h
        obtain ⟨a, b⟩ := dispatch_undefined w st hu
        exact ⟨by rw [a, hl], b⟩

/-! The claims C11 to C18 -/

/-- C11. For every input line that consists only of a line terminator or only of
whitespace characters (every character satisfies `isspace`), handling the line does
nothing: no error message, no builtin, no search, no child, and the next read follows.
The tokenizer and the code after it are not run: with any tokenizer and any dispatcher in
their place, even ones that never return, the iteration gives the same result. -/
theorem blank_line_skipped (w : World) (line : List Char)
    (hblank : ∀ c ∈ line, isspace c = true) :
    processLine w line = some { shell := [], child := none, control := Control.next }
    ∧ ∀ (tok : List Char → Option TokState) (disp : TokState → LineResult),
        loopBody tok disp line = some { shell := [], child := none, control := Control.next } := by
  have hstart : start line = [] := by
    unfold start
    exact List.dropWhile_eq_nil_iff.mpr hblank
  have key : ∀ (tok : List Char → Option TokState) (disp : TokState → LineResult),
      loopBody tok disp line = some { shell := [], child := none, control := Control.next } := by
    intro tok disp
    unfold loopBody
    by_cases h : line = ['\n']
    · simp only [h, if_true]
    · simp only [h, if_false, hstart, List.length_nil, if_true]
  exact ⟨by rw [processLine_eq_loopBody]; exact key _ _, key⟩

/-- Witness of C11 on a line of blanks, tabs and a vertical tab, and on the bare newline. -/
theorem blank_line_skipped_witness :
    (∀ c ∈ " \t \x0b\n".toList, isspace c = true)
    ∧ processLine bareWorld " \t \x0b\n".toList
        = some { shell := [], child := none, control := Control.next }
    ∧ loopBody (fun _ => none) (dispatch bareWorld) ['\n']
        = some { shell := [], child := none, control := Control.next } :=
  ⟨by decide, (blank_line_skipped bareWorld " \t \x0b\n".toList (by decide)).1,
    (blank_line_skipped bareWorld ['\n'] (by decide)).2 _ _⟩

/-- Redirection after a builtin, with one delimiter before the filename.  For every line
whose first token is `exit`, `quit` or `cd`, whose tokens are ordinary and which ends in
a delimiter, and every suffix `>`, one delimiter, a non-empty filename, then only
delimiters: handling the line with the suffix gives exactly the result of handling the
line without it, that is, any line with the same tokens that ends in a delimiter (same
messages, same `chdir` call, same exit); no child is created, and the shell process makes
no call other than `chdir` and `exit`, so the file is never opened. -/
theorem builtin_ignores_redirect (w : World) (body file tail cmd line0 : List Char)
    (d : Char)
    (hline : InputLine (body ++ '>' :: d :: (file ++ tail)))
    (hfirst : (wordsOf (start body)).head? = some cmd)
    (hcmd : cmd = "exit".toList ∨ cmd = "quit".toList ∨ cmd = "cd".toList)
    (hplain : ['>'] ∉ wordsOf (start body))
    (hends : endsDelim body)
    (hd : isDelim d = true) (hfile : file ≠ [] ∧ ∀ c ∈ file, ¬ (isDelim c = true))
    (htail : ∀ c ∈ tail, isDelim c = true)
    (hline0 : InputLine line0) (hends0 : endsDelim line0)
    (hsame : wordsOf (start line0) = wordsOf (start body)) :
    processLine w (body ++ '>' :: d :: (file ++ tail)) = processLine w line0
    ∧ ∃ r, processLine w line0 = some r ∧ r.child = none
        ∧ ∀ a ∈ r.shell, a = Action.writeError ∨ a = Action.exit 0
            ∨ ∃ dir, a = Action.chdir dir := by
  have h32 : MAX_NUM_ARGUMENTS = 32 := rfl
  have hw0 : wordsOf [] = [] := by decide
  have hsne : start body ≠ [] := by
    intro h; rw [h, hw0] at hfirst; simp at hfirst
  have hstart : start (body ++ '>' :: d :: (file ++ tail))
      = start body ++ '>' :: d :: (file ++ tail) := start_append body _ hsne
  have hse : endsDelim (start body) := start_endsDelim body hends
  have hse0 : endsDelim (start line0) := start_endsDelim line0 hends0
  have hlen1 := input_start_length _ hline
  rw [hstart] at hlen1
  have hlen0 := input_start_length _ hline0
  -- the words of the two lines
  obtain ⟨more, hts⟩ : ∃ more, wordsOf (start body) = cmd :: more := by
    cases hw : wordsOf (start body) with
    | nil => rw [hw] at hfirst; simp at hfirst
    | cons a more =>
      rw [hw] at hfirst
      simp only [List.head?_cons, Option.some.injEq] at hfirst
      exact ⟨more, by rw [hfirst]⟩
  have hwords1 : wordsOf (start body ++ '>' :: d :: (file ++ tail))
      = wordsOf (start body) ++ wordsOf ('>' :: d :: (file ++ tail)) :=
    wordsOf_append _ _ _ le_rfl hse
  have hne0 : wordsOf (start line0) ≠ [] := by rw [hsame, hts]; simp
  have hne1 : wordsOf (start (body ++ '>' :: d :: (file ++ tail))) ≠ [] := by
    rw [hstart, hwords1, hts]; simp
  -- the line without the suffix
  obtain ⟨st0, t0, r0, l0, c0, a0⟩ := tokenize_plain (start line0) hlen0
    (fun h => hplain (hsame ▸ List.mem_of_mem_take h))
  rw [hsame] at c0 a0
  obtain ⟨_, _, _, _, _, s0⟩ := tokenize_result _ _ t0
  have hsent0 : st0.token_count < MAX_NUM_ARGUMENTS →
      readSlot st0.token st0.token_count = Slot.null := fun h => s0 r0 hse0 h
  -- the line with the suffix
  have key : ∃ st1, tokenize (start body ++ '>' :: d :: (file ++ tail)) = some st1
      ∧ st1.redirect ≠ -1 ∧ st1.log = [] ∧ st1.token_count = st0.token_count
      ∧ acceptedTokens st1 = acceptedTokens st0
      ∧ (st1.token_count < MAX_NUM_ARGUMENTS →
          readSlot st1.token st1.token_count = Slot.null) := by
    by_cases hk : (wordsOf (start body)).length < MAX_NUM_ARGUMENTS
    · obtain ⟨st1, t1, r1, l1, _, c1, a1⟩ := tokenize_redirect (start body) file tail d hlen1
        hse hplain (by rw [hts]; simp) hk hd hfile htail
      obtain ⟨_, _, _, _, s1, _⟩ := tokenize_result _ _ t1
      have htake : (wordsOf (start body)).take MAX_NUM_ARGUMENTS = wordsOf (start body) :=
        List.take_of_length_le (by omega)
      rw [htake] at c0 a0
      exact ⟨st1, t1, by rw [r1]; decide, l1, by rw [c1, c0], by rw [a1, a0],
        fun _ => (s1 r1).2⟩
    · have htake : (wordsOf (start body ++ '>' :: d :: (file ++ tail))).take MAX_NUM_ARGUMENTS
          = (wordsOf (start body)).take MAX_NUM_ARGUMENTS := by
        rw [hwords1]
        exact List.take_append_of_le_length (by omega)
      obtain ⟨st1, t1, r1, l1, c1, a1⟩ := tokenize_plain
        (start body ++ '>' :: d :: (file ++ tail)) hlen1
        (by rw [htake]; exact fun h => hplain (List.mem_of_mem_take h))
      rw [htake] at c1 a1
      refine ⟨st1, t1, by rw [r1]; decide, l1, by rw [c1, c0], by rw [a1, a0], fun h => ?_⟩
      rw [c1, List.length_take] at h
      omega
  obtain ⟨st1, t1, r1, l1, c1, a1, hsent1⟩ := key
  -- slot 0 of the line without the suffix
  have hcnt0 : 1 ≤ st0.token_count := by
    rw [c0, hts, List.length_take, List.length_cons]; omega
  have hslot0 : readSlot st0.token 0 = Slot.str cmd := by
    have := readSlot_take st0.token st0.token_count 0 (by omega)
    unfold acceptedTokens at a0
    rw [← this, a0, hts, h32]
    rfl
  obtain ⟨b0, b1, b2⟩ := builtin_slots_agree st0 st1 cmd c1.symm hcnt0 a1.symm hslot0
    hsent0 hsent1
  have hdisp : dispatch w st1 = dispatch w st0 :=
    (dispatch_builtin_congr w st0 st1 cmd hcmd hslot0 b0 b1 b2 (by rw [l0, l1])).symm
  have hp0 : processLine w line0 = some (dispatch w st0) := by
    rw [processLine_of_tokenize w line0 st0 hne0 t0, if_neg (by rw [r0]; decide)]
  have hp1 : processLine w (body ++ '>' :: d :: (file ++ tail)) = some (dispatch w st1) := by
    rw [processLine_of_tokenize w _ st1 hne1 (by rw [hstart]; exact t1), if_neg r1]
  obtain ⟨q1, q2⟩ := dispatch_builtin_quiet w st0 cmd hcmd hslot0 l0
  exact ⟨by rw [hp0, hp1, hdisp], dispatch w st0, hp0, q1, q2⟩

/-- The lines `cd /tmp > out` and `cd /tmp`, both newline-terminated, as an instance of
`builtin_ignores_redirect`. -/
theorem builtin_ignores_redirect_witness :
    InputLine ("cd /tmp ".toList ++ '>' :: ' ' :: ("out".toList ++ ['\n']))
    ∧ endsDelim "cd /tmp ".toList
    ∧ wordsOf (start "cd /tmp\n".toList) = wordsOf (start "cd /tmp ".toList)
    ∧ processLine (worldWith []) ("cd /tmp ".toList ++ '>' :: ' ' :: ("out".toList ++ ['\n']))
        = processLine (worldWith []) "cd /tmp\n".toList
    ∧ ∃ r, processLine (worldWith []) "cd /tmp\n".toList = some r ∧ r.child = none
        ∧ ∀ a ∈ r.shell, a = Action.writeError ∨ a = Action.exit 0
            ∨ ∃ dir, a = Action.chdir dir :=
  ⟨by decide, by decide, by decide,
    builtin_ignores_redirect (worldWith []) "cd /tmp ".toList "out".toList ['\n']
      "cd".toList "cd /tmp\n".toList ' ' (by decide) (by decide) (by decide) (by decide)
      (by decide) (by decide) (by decide) (by decide) (by decide) (by decide) (by decide)⟩

/-- C12, at the lines `cd /tmp >  out` and `exit >  out` (two spaces between `>` and the
filename, newline-terminated).  By the spec's tokenizer each is a builtin line with a
well-formed redirect suffix: tokens `cd`, `/tmp`, respectively `exit`, and target `out`.
The code takes the empty piece between the two spaces as the filename: it writes the
error message and drops the line, so no `chdir` call is made and the shell does not
exit, whereas the same lines without the suffix call `chdir` and `exit(0)`.  (With one
delimiter before the filename the suffix changes nothing: `builtin_ignores_redirect`.) -/
theorem builtin_redirect_two_delimiters (w : World) :
    specTokenize "cd /tmp >  out\n".toList
        = some (["cd".toList, "/tmp".toList], some "out".toList)
    ∧ specTokenize "exit >  out\n".toList = some (["exit".toList], some "out".toList)
    ∧ processLine w "cd /tmp >  out\n".toList
        = some { shell := [Action.writeError], child := none, control := Control.next }
    ∧ processLine w "cd /tmp\n".toList
        = some (if w.chdir "/tmp".toList then
            { shell := [Action.chdir "/tmp".toList], child := none, control := Control.next }
          else
            { shell := [Action.chdir "/tmp".toList, Action.writeError], child := none,
              control := Control.next })
    ∧ processLine w "exit >  out\n".toList
        = some { shell := [Action.writeError], child := none, control := Control.next }
    ∧ processLine w "exit\n".toList
        = some { shell := [Action.exit 0], child := none, control := Control.exit 0 }
    ∧ processLine w "cd /tmp >  out\n".toList ≠ processLine w "cd /tmp\n".toList
    ∧ processLine w "exit >  out\n".toList ≠ processLine w "exit\n".toList := by
  have h1 : processLine w "cd /tmp >  out\n".toList
      = some { shell := [Action.writeError], child := none, control := Control.next } := rfl
  have h2 : processLine w "cd /tmp\n".toList
      = some (if w.chdir "/tmp".toList then
          { shell := [Action.chdir "/tmp".toList], child := none, control := Control.next }
        else
          { shell := [Action.chdir "/tmp".toList, Action.writeError], child := none,
            control := Control.next }) := by
    cases hc : w.chdir "/tmp".toList
    · have h : processLine w "cd /tmp\n".toList
          = some (if w.chdir "/tmp".toList then
              ({ shell := [Action.chdir "/tmp".toList], child := none,
                 control := Control.next } : LineResult)
            else
              { shell := [Action.chdir "/tmp".toList, Action.writeError], child := none,
                control := Control.next }) := rfl
      rw [h, hc]
    · have h : processLine w "cd /tmp\n".toList
          = some (if w.chdir "/tmp".toList then
              ({ shell := [Action.chdir "/tmp".toList], child := none,
                 control := Control.next } : LineResult)
            else
              { shell := [Action.chdir "/tmp".toList, Action.writeError], child := none,
                control := Control.next }) := rfl
      rw [h, hc]
  have h3 : processLine w "exit >  out\n".toList
      = some { shell := [Action.writeError], child := none, control := Control.next } := rfl
  have h4 : processLine w "exit\n".toList
      = some { shell := [Action.exit 0], child := none, control := Control.exit 0 } := rfl
  refine ⟨by decide, by decide, h1, h2, h3, h4, ?_, ?_⟩
  · rw [h1, h2]
    cases w.chdir "/tmp".toList <;> decide
  · rw [h3, h4]
    decide

/-- The read loop and the lines the code takes as `exit`.  For every sequence of lines
delivered by `fgets`, with any results of the system calls and any old content of the
array `token` at each line: the read loop ends, always with status 0; it ends either at
end of input, after all lines, or at a line on which the tokenizer loop set no error flag
and left `exit` or `quit` as the only accepted token; and as long as no such line has
been read, the shell goes on to read what follows. -/
theorem shell_stops_at_eof_or_exit (inputs : List LineInput) :
    ∃ e, runShell inputs = some e ∧ e.status = 0
      ∧ ((e.atEof = true ∧ e.linesRead = inputs.length)
          ∨ (e.atEof = false ∧ ∃ pre x post, inputs = pre ++ x :: post
              ∧ e.linesRead = pre.length + 1
              ∧ (∃ st, tokenize (start x.line) = some st ∧ st.redirect ≠ -1
                ∧ (acceptedTokens st = [Slot.str "exit".toList]
                    ∨ acceptedTokens st = [Slot.str "quit".toList]))))
      ∧ ∀ pre post, inputs = pre ++ post → (∀ x ∈ pre, ¬ (∃ st, tokenize (start x.line) = some st ∧ st.redirect ≠ -1
                ∧ (acceptedTokens st = [Slot.str "exit".toList]
                    ∨ acceptedTokens st = [Slot.str "quit".toList]))) →
          ∃ e', runShell post = some e'
            ∧ e = { e' with linesRead := e'.linesRead + pre.length } := by
  induction inputs with
  | nil =>
    refine ⟨_, rfl, rfl, Or.inl ⟨rfl, rfl⟩, fun pre post h _ => ?_⟩
    have hp : pre = [] ∧ post = [] := by
      cases pre with
      | nil => exact ⟨rfl, by simpa using h.symm⟩
      | cons a t => simp at h
    rw [hp.1, hp.2]
    exact ⟨_, rfl, rfl⟩
  | cons x rest ih =>
    obtain ⟨r, hr, _, hctl, _⟩ := line_outcome x.world x.stale x.line
    obtain ⟨e0, he0, hs0, hstop0, hgo0⟩ := ih
    rcases hctl with hnext | ⟨hexit, hel, _, _⟩
    · have hrun : runShell (x :: rest)
          = some { e0 with linesRead := e0.linesRead + 1 } := by
        rw [runShell, hr]
        simp only [hnext, he0, Option.map_some']
      refine ⟨_, hrun, hs0, ?_, fun pre post h hno => ?_⟩
      · rcases hstop0 with ⟨h1, h2⟩ | ⟨h1, pre, y, post, h2, h3, h4⟩
        · exact Or.inl ⟨h1, by simp only [List.length_cons]; omega⟩
        · exact Or.inr ⟨h1, x :: pre, y, post, by rw [h2]; rfl,
            by simp only [List.length_cons]; omega, h4⟩
      · cases pre with
        | nil =>
          simp only [List.nil_append] at h
          rw [← h]
          exact ⟨_, hrun, rfl⟩
        | cons a pre' =>
          simp only [List.cons_append, List.cons.injEq] at h
          obtain ⟨e', he', hee⟩ := hgo0 pre' post h.2
            (fun y hy => hno y (List.mem_cons_of_mem _ hy))
          refine ⟨e', he', ?_⟩
          rw [hee]
          simp only [List.length_cons, ShellEnd.mk.injEq, true_and, and_true]
          omega
    · have hrun : runShell (x :: rest)
          = some { status := 0, linesRead := 1, atEof := false } := by
        rw [runShell, hr]
        simp only [hexit]
      refine ⟨_, hrun, rfl, Or.inr ⟨rfl, [], x, rest, rfl, rfl, hel⟩,
        fun pre post h hno => ?_⟩
      cases pre with
      | nil =>
        simp only [List.nil_append] at h
        rw [← h]
        exact ⟨_, hrun, rfl⟩
      | cons a pre' =>
        simp only [List.cons_append, List.cons.injEq] at h
        exact absurd (h.1 ▸ hel) (hno a (List.mem_cons_self _ _))

/-- C13, at the lines `exit > out  x` and `ls` (two spaces between the filename and the
further token `x`).  By the spec's tokenizer the first line is a parse error, since a
further token follows the filename; it is not an `exit` line with no arguments, and the
shell should report the error and read the second line.  The code checks only the one
piece after the filename, which is empty: it accepts the redirection, finds `exit` with
no argument and calls `exit(0)`; the read loop ends at the first line and the second is
never read.  This holds with any results of the system calls and any old content of the
array.  (The loop always ends with status 0, and only at end of input or at a line the
code's tokenizer accepts as `exit`/`quit` alone: `shell_stops_at_eof_or_exit`.) -/
theorem exit_with_malformed_redirect_stops (w : World) (stale : Nat → Option (List Char)) :
    specTokenize "exit > out  x\n".toList = none
    ∧ ¬ SpecExitLine "exit > out  x\n".toList
    ∧ processLine w "exit > out  x\n".toList
        = some { shell := [Action.exit 0], child := none, control := Control.exit 0 }
    ∧ processLineStale w stale "exit > out  x\n".toList
        = some { shell := [Action.exit 0], child := none, control := Control.exit 0 }
    ∧ runShell [{ line := "exit > out  x\n".toList, world := w, stale := stale },
                { line := "ls\n".toList, world := w, stale := stale }]
        = some { status := 0, linesRead := 1, atEof := false } :=
  ⟨by decide, by decide, rfl, rfl, rfl⟩

set_option maxRecDepth 100000 in
/-- C14, at a command name of 250 bytes (the line is the name and a newline, 251
characters).  The path tested and executed for `/bin/` is not `/bin/` followed by the
name: `snprintf` into the 255-byte buffer cuts it to `/bin/` and 249 bytes of the name,
and when that shorter path is executable it is what the child executes.  (For names of at
most 239 bytes each candidate is the directory followed by the whole name:
`snprintf_fits`.) -/
theorem long_name_path_truncated :
    InputLine (longName ++ ['\n'])
    ∧ (wordsOf (start (longName ++ ['\n']))).head? = some longName
    ∧ snprintf MAX_COMMAND_SIZE "/bin/".toList longName = cutPath
    ∧ cutPath ≠ "/bin/".toList ++ longName
    ∧ processLine (worldWith [cutPath]) (longName ++ ['\n'])
        = some { shell := [Action.access cutPath, Action.fork, Action.waitpid],
                 child := some [Action.execv cutPath (some [longName])],
                 control := Control.next } := by
  decide

/-- C15. In the child of a line that tokenized with a redirect target (`redirect = 1`):
the target is a non-empty filename, the argument vector is the full list of accepted
tokens, and the child makes these calls in this order: `open` of the target; the error
message exactly when `open` returned -1; `dup2` onto standard output and onto standard
error and `close`, with whatever `open` returned; `execv` of the path with the argument
vector; and, when `execv` returns, the error message and `exit(1)`.  This is the child
of every resolved command that is no builtin when `fork` succeeds. -/
theorem child_with_redirect (w : World) (line : List Char) (st : TokState)
    (htok : tokenize (start line) = some st) (hred : st.redirect = 1) :
    ∃ file args, st.outputFile = some file ∧ file ≠ []
      ∧ acceptedTokens st = args.map Slot.str
      ∧ (∀ path, childRun w path st =
          [Action.openFile (some file)]
            ++ (if w.openFd (some file) = -1 then [Action.writeError] else [])
            ++ [Action.dup2 (w.openFd (some file)) 1, Action.dup2 (w.openFd (some file)) 2,
                Action.close (w.openFd (some file)), Action.execv path (some args)]
            ++ (if w.execOk path then [] else [Action.writeError, Action.exit 1]))
      ∧ (∀ cmd, readSlot st.token 0 = Slot.str cmd →
          cmd ≠ "exit".toList ∧ cmd ≠ "quit".toList ∧ cmd ≠ "cd".toList →
          (search w cmd).check = true → w.forkOk = true →
          (dispatch w st).child = some (childRun w (search w cmd).path st)) := by
  obtain ⟨_, _, hgood, _, h1, _⟩ := tokenize_result _ _ htok
  obtain ⟨_, hnull⟩ := h1 hred
  obtain ⟨args, hargs, hargv⟩ := argvOf_sentinel st.token_count st.token
    (fun i hi => by obtain ⟨t, ht, _⟩ := hgood i hi; exact ⟨t, ht⟩) hnull
  have hfile : ∃ f, st.outputFile = some f ∧ f ≠ [] := by
    rcases tokenizeLoop_redirect_file _ _ _ htok rfl rfl with ⟨h0, _⟩ | ⟨_, f, hf, hne⟩ | hm
    · rw [hred] at h0; exact absurd h0 (by decide)
    · exact ⟨f, hf, hne⟩
    · rw [hred] at hm; exact absurd hm (by decide)
  obtain ⟨file, hf, hne⟩ := hfile
  refine ⟨file, args, hf, hne, hargs, fun path => ?_, fun cmd h0 hnb hck hfk => ?_⟩
  · have hr : st.redirect ≠ 0 := by rw [hred]; decide
    unfold childRun
    simp only [hr, hf, hargv, ne_eq, not_false_eq_true, if_true, List.append_assoc,
      List.cons_append, List.nil_append, List.singleton_append]
  · rw [dispatch_external w st cmd h0 hnb]
    simp [hck, hfk]

/-- Witness of C15 on the line `ls -l > out`. -/
theorem child_with_redirect_witness :
    tokenize (start "ls -l > out\n".toList) = some lsOutState
    ∧ lsOutState.redirect = 1
    ∧ ∃ file args, lsOutState.outputFile = some file ∧ file ≠ []
      ∧ acceptedTokens lsOutState = args.map Slot.str
      ∧ (∀ path, childRun bareWorld path lsOutState =
          [Action.openFile (some file)]
            ++ (if bareWorld.openFd (some file) = -1 then [Action.writeError] else [])
            ++ [Action.dup2 (bareWorld.openFd (some file)) 1,
                Action.dup2 (bareWorld.openFd (some file)) 2,
                Action.close (bareWorld.openFd (some file)), Action.execv path (some args)]
            ++ (if bareWorld.execOk path then [] else [Action.writeError, Action.exit 1]))
      ∧ (∀ cmd, readSlot lsOutState.token 0 = Slot.str cmd →
          cmd ≠ "exit".toList ∧ cmd ≠ "quit".toList ∧ cmd ≠ "cd".toList →
          (search bareWorld cmd).check = true → bareWorld.forkOk = true →
          (dispatch bareWorld lsOutState).child
            = some (childRun bareWorld (search bareWorld cmd).path lsOutState)) :=
  ⟨by decide, by decide,
    child_with_redirect bareWorld "ls -l > out\n".toList lsOutState (by decide) (by decide)⟩

/-- C16. For every input line that passes the two blank-line tests, the tokenizer loop
ends, and unless it reports a parse error at least one token is accepted: the list of
accepted tokens is not empty and slot 0 holds a non-empty string, so the comparisons of
`token[0]` with the builtin names read a string. -/
theorem first_token_present (line : List Char)
    (hpass : line ≠ ['\n'] ∧ (start line).length ≠ 0) :
    ∃ st, tokenize (start line) = some st
      ∧ (st.redirect ≠ -1 →
          1 ≤ st.token_count ∧ acceptedTokens st ≠ []
            ∧ ∃ cmd, readSlot st.token 0 = Slot.str cmd ∧ cmd ≠ []) := by
  rcases start_head line with hnil | ⟨c, t, hct, hc⟩
  · rw [hnil] at hpass; exact absurd rfl hpass.2
  · obtain ⟨st, htok, hres⟩ := tokenize_nonempty (start line) c t hct hc
    refine ⟨st, htok, fun hok => ?_⟩
    have h1 : 1 ≤ st.token_count := by
      rcases hres with h | h
      · exact absurd h hok
      · exact h
    obtain ⟨hlen, _, hgood, _⟩ := tokenize_result _ _ htok
    obtain ⟨cmd, hcmd, hg, _⟩ := hgood 0 (by omega)
    refine ⟨h1, ?_, cmd, hcmd, hg⟩
    intro h
    have := congrArg List.length h
    simp only [acceptedTokens, List.length_take, List.length_nil, hlen] at this
    have h32 : MAX_NUM_ARGUMENTS = 32 := rfl
    omega

/-- Witness of C16 on the line `ls`. -/
theorem first_token_present_witness :
    ("ls\n".toList ≠ ['\n'] ∧ (start "ls\n".toList).length ≠ 0)
    ∧ ∃ st, tokenize (start "ls\n".toList) = some st
      ∧ (st.redirect ≠ -1 →
          1 ≤ st.token_count ∧ acceptedTokens st ≠ []
            ∧ ∃ cmd, readSlot st.token 0 = Slot.str cmd ∧ cmd ≠ []) :=
  ⟨by decide, first_token_present "ls\n".toList (by decide)⟩

/-- C17. For every input line, at the head of every iteration of the tokenizer loop and
at its exit: the token count is at most 32 and each slot below it holds a string that is
non-empty, contains no space, tab or newline, and is not `>`.  The loop ends, and when
it ends without a parse error a filename is recorded exactly when `redirect` is 1; a
recorded filename is non-empty. -/
theorem tokenizer_loop_invariant (line : List Char) :
    (∀ st ∈ iterStates ((start line).length + 2) (initState (start line)),
      st.token_count ≤ MAX_NUM_ARGUMENTS
        ∧ ∀ i, i < st.token_count → ∃ t, readSlot st.token i = Slot.str t
            ∧ t ≠ [] ∧ (∀ c ∈ t, ¬ (isDelim c = true)) ∧ t ≠ ['>'])
    ∧ ∃ st', tokenize (start line) = some st'
        ∧ (iterStates ((start line).length + 2) (initState (start line))).getLast? = some st'
        ∧ (st'.redirect ≠ -1 →
            ((∃ f, st'.outputFile = some f) ↔ st'.redirect = 1)
              ∧ ∀ f, st'.outputFile = some f → f ≠ []) := by
  constructor
  · intro st hst
    obtain ⟨_, hc, hg⟩ := iterStates_inv _ _ (initState_inv (start line)) st hst
    refine ⟨hc, fun i hi => ?_⟩
    obtain ⟨t, ht, h1, h2, h3⟩ := hg i hi
    exact ⟨t, ht, h1, h3, h2⟩
  · obtain ⟨st', h⟩ := tokenize_total (start line)
    refine ⟨st', h, iterStates_last _ _ _ h, fun hok => ?_⟩
    rcases tokenizeLoop_redirect_file _ _ _ h rfl rfl with ⟨h0, hf⟩ | ⟨h1, f, hf, hne⟩ | hm
    · refine ⟨⟨fun ⟨f, hf'⟩ => by rw [hf] at hf'; simp at hf',
        fun h1 => by rw [h0] at h1; exact absurd h1 (by decide)⟩, fun f hf' => ?_⟩
      rw [hf] at hf'; simp at hf'
    · refine ⟨⟨fun _ => h1, fun _ => ⟨f, hf⟩⟩, fun f' hf' => ?_⟩
      rw [hf] at hf'
      simp only [Option.some.injEq] at hf'
      rw [← hf']; exact hne
    · exact absurd hm hok

/-- C18. For every input line, whatever the array `token` held before: the shell
process writes the error message at most once while handling the line, and when it
writes it there is no child, no exit, and no call other than the `access` tests, a
`fork` that failed, or a `chdir` that failed.  The same holds for `processLine`. -/
theorem one_error_per_line (w : World) (stale : Nat → Option (List Char))
    (line : List Char) :
    (∃ r, processLineStale w stale line = some r
      ∧ r.shell.count Action.writeError ≤ 1
      ∧ (Action.writeError ∈ r.shell →
          r.child = none ∧ r.control = Control.next
            ∧ ∀ a ∈ r.shell, a = Action.writeError ∨ (∃ p, a = Action.access p)
                ∨ a = Action.fork ∨ ∃ d, a = Action.chdir d ∧ w.chdir d = false))
    ∧ (∃ r, processLine w line = some r
      ∧ r.shell.count Action.writeError ≤ 1
      ∧ (Action.writeError ∈ r.shell →
          r.child = none ∧ r.control = Control.next
            ∧ ∀ a ∈ r.shell, a = Action.writeError ∨ (∃ p, a = Action.access p)
                ∨ a = Action.fork ∨ ∃ d, a = Action.chdir d ∧ w.chdir d = false)) := by
  obtain ⟨r', h1, h2, _, h4⟩ := line_outcome w stale line
  refine ⟨⟨r', h1, h2, h4⟩, ?_⟩
  obtain ⟨r, hr⟩ := processLine_total w line
  refine ⟨r, hr, ?_⟩
  by_cases hu : r.control = Control.undefined
  · obtain ⟨a, _⟩ := processLine_undefined w line r hr hu
    rw [a]
    exact ⟨by simp, fun h => by simp at h⟩
  · obtain ⟨r'', e1, e2, e3, e4⟩ := processLine_refines w stale line r hr hu
    rw [h1] at e1
    simp only [Option.some.injEq] at e1
    subst e1
    rw [← e2]
    refine ⟨h2, fun hm => ?_⟩
    obtain ⟨c1, c2, c3⟩ := h4 hm
    exact ⟨e4.mp c1, by rw [← e3]; exact c2, c3⟩

end Msh
